import Mathlib

/-!
Verification development for the `verse-chorus/tsp` repository.

The Python source is shallowly embedded in Lean 4:

* A `City` is identified with an element of an abstract type `α` with
  decidable equality (Python compares city objects by identity, and city
  names are unique within a working set).  The fully populated pairwise
  distance maps (`City.distance_to`, filled by `calculate_distances`) are
  embedded as a total function `d : α → α → ℚ`; machine floats are embedded
  as exact rationals.
* `Route` (src/src/route.py) is a structure holding the city sequence and the
  cached length; `recalc_rt_len` is the function `rt_len`.
* Randomness (`random.sample`, `random.randint`, `random.random`) is made
  explicit: every random draw becomes an argument of the embedded function,
  and theorems quantify over those arguments (restricted exactly to the
  values the Python RNG can produce, e.g. `random.sample(l, len(l))` always
  returns a permutation of `l`).
* The name-keyed distance dictionary itself (needed for the
  `calculate_distances` claims) is embedded separately as an association
  list with Python-dict update semantics.
-/

set_option linter.unusedSectionVars false
set_option linter.unusedVariables false

namespace TSP

variable {α : Type} [DecidableEq α] [Inhabited α]

/-- Embeds `Route` (src/src/route.py): the ordered city sequence plus the
cached tour length. -/
structure Route (α : Type) where
  route : List α
  length : ℚ
deriving DecidableEq, Repr

instance : Inhabited (Route α) := ⟨⟨[], 0⟩⟩

/-- Embeds `Route.recalc_rt_len`: cyclic tour length
`Σ_i d(route[i], route[(i+1) % n])`, mirroring
`for i, city in enumerate(self.route): ... self.route[(i + 1) % len(self.route)]`. -/
def rt_len (d : α → α → ℚ) (l : List α) : ℚ :=
  ((List.range l.length).map
    (fun i => d (l.getD i default) (l.getD ((i + 1) % l.length) default))).sum

/-- Embeds `Route.__init__`: `self.route = random.sample(cities, len(cities))`
followed by `recalc_rt_len`.  The permutation the RNG returns is the explicit
argument `shuffle` (theorems restrict it to permutations of the input, which
is exactly what `random.sample` guarantees). -/
def mkRoute (d : α → α → ℚ) (shuffle : List α) : Route α :=
  ⟨shuffle, rt_len d shuffle⟩

/-! ### Cyclic-pair reformulation of the tour length -/

/-- The list of directed tour edges of `l`: `l` zipped with its one-step
rotation. -/
def tourPairs (l : List α) : List (α × α) :=
  l.zip (l.rotate 1)

theorem length_tourPairs (l : List α) : (tourPairs l).length = l.length := by
  simp [tourPairs, List.length_zip]

theorem rt_len_eq_tourPairs (d : α → α → ℚ) (l : List α) :
    rt_len d l = ((tourPairs l).map (fun p => d p.1 p.2)).sum := by
  unfold rt_len
  congr 1
  apply List.ext_getElem
  · simp [tourPairs, List.length_zip]
  · intro i h₁ h₂
    have hi : i < l.length := by simpa using h₁
    have hmod : (i + 1) % l.length < l.length := Nat.mod_lt _ (by omega)
    have hrot : i < (l.rotate 1).length := by simpa [List.length_rotate] using hi
    simp only [List.getElem_map, List.getElem_range, tourPairs, List.getElem_zip]
    rw [List.getD_eq_getElem _ _ hi, List.getD_eq_getElem _ _ hmod]
    congr 1
    have := List.get_rotate l 1 ⟨i, hrot⟩
    simpa [List.get_eq_getElem] using this.symm

theorem zip_drop {β γ : Type} (a : List β) (b : List γ) (k : ℕ) :
    (a.drop k).zip (b.drop k) = (a.zip b).drop k := by
  apply List.ext_getElem
  · simp [List.length_zip, List.length_drop]
    omega
  · intro i h₁ h₂
    have ha : k + i < a.length := by
      simp [List.length_zip, List.length_drop] at h₁; omega
    have hb : k + i < b.length := by
      simp [List.length_zip, List.length_drop] at h₁; omega
    simp [List.getElem_zip, List.getElem_drop]

theorem zip_take {β γ : Type} (a : List β) (b : List γ) (k : ℕ) :
    (a.take k).zip (b.take k) = (a.zip b).take k := by
  apply List.ext_getElem
  · simp [List.length_zip, List.length_take]
    omega
  · intro i h₁ h₂
    simp [List.getElem_zip, List.getElem_take]

theorem zip_rotate {β γ : Type} (a : List β) (b : List γ)
    (hab : a.length = b.length) (k : ℕ) :
    (a.rotate k).zip (b.rotate k) = (a.zip b).rotate k := by
  rcases Nat.eq_zero_or_pos a.length with h0 | hpos
  · have ha : a = [] := List.length_eq_zero.mp h0
    have hb : b = [] := List.length_eq_zero.mp (hab ▸ h0)
    simp [ha, hb]
  · set k' := k % a.length with hk'
    have hk'a : k' ≤ a.length := le_of_lt (Nat.mod_lt _ hpos)
    have hk'b : k' ≤ b.length := hab ▸ hk'a
    have hzl : (a.zip b).length = a.length := by
      simp [List.length_zip, hab]
    have hk'z : k' ≤ (a.zip b).length := hzl ▸ hk'a
    have h1 : a.rotate k = a.drop k' ++ a.take k' := by
      rw [← List.rotate_mod, List.rotate_eq_drop_append_take hk'a]
    have h2 : b.rotate k = b.drop k' ++ b.take k' := by
      have hmod : k % b.length = k' := by rw [← hab, ← hk']
      rw [← List.rotate_mod, hmod, List.rotate_eq_drop_append_take hk'b]
    have h3 : (a.zip b).rotate k = (a.zip b).drop k' ++ (a.zip b).take k' := by
      rw [← List.rotate_mod, hzl, List.rotate_eq_drop_append_take hk'z]
    rw [h1, h2, h3, List.zip_append (by simp [List.length_drop, hab]),
      zip_drop, zip_take]

theorem zip_reverse {β γ : Type} (a : List β) (b : List γ)
    (hab : a.length = b.length) :
    a.reverse.zip b.reverse = (a.zip b).reverse := by
  apply List.ext_getElem
  · simp [List.length_zip, hab]
  · intro i h₁ h₂
    have hi : i < a.length := by
      simp [List.length_zip, hab] at h₁; omega
    have h₁' : a.length - 1 - i < a.length := by omega
    have h₂' : a.length - 1 - i < b.length := by omega
    simp only [List.getElem_zip, List.getElem_reverse, List.length_zip,
      List.length_reverse, hab]
    simp [List.length_zip, hab]

theorem tourPairs_rotate (l : List α) (k : ℕ) :
    tourPairs (l.rotate k) = (tourPairs l).rotate k := by
  unfold tourPairs
  have h1 : (l.rotate k).rotate 1 = (l.rotate 1).rotate k := by
    rw [List.rotate_rotate, List.rotate_rotate, Nat.add_comm]
  rw [h1, zip_rotate _ _ (by simp [List.length_rotate]) k]

theorem rt_len_rotate (d : α → α → ℚ) (l : List α) (k : ℕ) :
    rt_len d (l.rotate k) = rt_len d l := by
  rw [rt_len_eq_tourPairs, rt_len_eq_tourPairs, tourPairs_rotate]
  exact List.Perm.sum_eq (List.Perm.map _ (List.rotate_perm _ _))

theorem rt_len_reverse (d : α → α → ℚ) (hsym : ∀ a b, d a b = d b a)
    (l : List α) : rt_len d l.reverse = rt_len d l := by
  rcases Nat.eq_zero_or_pos l.length with h0 | hpos
  · have hnil : l = [] := List.length_eq_zero.mp h0
    simp [hnil]
  · have hm1 : (l.length - 1 % l.length + 1) % l.length = 0 := by
      rcases Nat.lt_or_ge 1 l.length with h2 | h1
      · rw [Nat.mod_eq_of_lt h2, Nat.sub_add_cancel hpos, Nat.mod_self]
      · have hne : l.length = 1 := le_antisymm h1 hpos
        rw [hne]
    have hrot1 : (l.rotate (l.length - 1 % l.length)).rotate 1 = l := by
      rw [List.rotate_rotate, ← List.rotate_mod, hm1, List.rotate_zero]
    have hrr : l.reverse.rotate 1 = (l.rotate (l.length - 1 % l.length)).reverse :=
      List.rotate_reverse l 1
    have hzip : tourPairs l.reverse
        = ((tourPairs (l.rotate (l.length - 1 % l.length))).map Prod.swap).reverse := by
      unfold tourPairs
      rw [hrr, zip_reverse _ _ (by simp [List.length_rotate])]
      congr 1
      rw [List.zip_swap, hrot1]
    rw [rt_len_eq_tourPairs, rt_len_eq_tourPairs, hzip]
    have hperm : (((tourPairs (l.rotate (l.length - 1 % l.length))).map Prod.swap).reverse.map
        (fun p => d p.1 p.2)).sum
        = (((tourPairs (l.rotate (l.length - 1 % l.length))).map Prod.swap).map
            (fun p => d p.1 p.2)).sum :=
      List.Perm.sum_eq (List.Perm.map _ (List.reverse_perm _))
    rw [hperm, List.map_map]
    have hcong : ((tourPairs (l.rotate (l.length - 1 % l.length))).map
          ((fun p => d p.1 p.2) ∘ Prod.swap))
        = (tourPairs (l.rotate (l.length - 1 % l.length))).map (fun p => d p.1 p.2) := by
      apply List.map_congr_left
      intro p _
      simp [Function.comp, Prod.swap, hsym p.2 p.1]
    rw [hcong, ← rt_len_eq_tourPairs, ← rt_len_eq_tourPairs, rt_len_rotate]

/-! ### Genetic operators (src/src/genetic_algorithm.py) -/

/-- Embeds the Python parallel assignment
`l[i], l[j] = l[j], l[i]`: both right-hand sides are read from the original
list before either write happens. -/
def listSwap (l : List α) (i j : ℕ) : List α :=
  (l.set i (l.getD j default)).set j (l.getD i default)

/-- Embeds `GeneticAlgorithm.mutate`.  `shuffle` is the permutation that
`random.sample(route.route, len(route.route))` inside `Route.__init__`
returned (the `route_copy = Route(route.route)` line), and `pos1`, `pos2` are
the two `random.randint(0, len(route.route) - 1)` draws. -/
def mutate (d : α → α → ℚ) (r : Route α) (shuffle : List α)
    (pos1 pos2 : ℕ) : Route α :=
  let route_copy := mkRoute d shuffle
  let swapped := listSwap route_copy.route pos1 pos2
  ⟨swapped, rt_len d swapped⟩

/-- Python slice `l[a:b]`. -/
def pySlice (l : List α) (a b : ℕ) : List α :=
  (l.take b).drop a

/-- Embeds the segment-copy loop of `GeneticAlgorithm.crossover`:
`for i in range(start_pos, end_pos + 1): child.route[i] = parent1.route[i]`. -/
def copySeg (child p1 : List α) (s e : ℕ) : List α :=
  (List.range' s (e + 1 - s)).foldl (fun ch i => ch.set i (p1.getD i default)) child

/-- Embeds the fill loop of `GeneticAlgorithm.crossover`:
`for city in parent2.route: if city not in child.route[start_pos:end_pos+1]:
child.route[current_pos] = city; current_pos = (current_pos + 1) % len(cities)`.
The membership test re-reads the slice of the current child each iteration,
exactly as the Python does. -/
def fillLoop (n s e : ℕ) : List α → List α → ℕ → List α
  | [], child, _ => child
  | c :: cs, child, cur =>
    if c ∈ pySlice child s (e + 1) then fillLoop n s e cs child cur
    else fillLoop n s e cs (child.set cur c) ((cur + 1) % n)

/-- Embeds `GeneticAlgorithm.crossover`.  `childInit` is the permutation
`random.sample(cities, len(cities))` drew inside `child = Route(cities)`;
`sp`, `ep` are the two `random.randint(0, len(cities) - 1)` cut draws (the
definition performs the `if start_pos > end_pos: swap` normalisation of the
source). -/
def crossover (d : α → α → ℚ) (cities childInit : List α)
    (p1 p2 : Route α) (sp ep : ℕ) : Route α :=
  let n := cities.length
  let s := if sp > ep then ep else sp
  let e := if sp > ep then sp else ep
  let afterSeg := copySeg childInit p1.route s e
  let filled := fillLoop n s e p2.route afterSeg ((e + 1) % n)
  ⟨filled, rt_len d filled⟩

/-! ### Indexed accounts of `set`-folds, slices and the fill loop -/

theorem getD_set (l : List α) (i j : ℕ) (a : α) :
    (l.set i a).getD j default
      = if i = j ∧ j < l.length then a else l.getD j default := by
  rcases Nat.lt_or_ge j l.length with hj | hj
  · have hj' : j < (l.set i a).length := by simpa [List.length_set] using hj
    by_cases hij : i = j
    · subst hij
      rw [List.getD_eq_getElem _ _ hj', List.getElem_set]
      simp [hj]
    · rw [List.getD_eq_getElem _ _ hj', List.getElem_set,
        List.getD_eq_getElem _ _ hj]
      simp [hij]
  · have h1 : (l.set i a).length ≤ j := by simpa [List.length_set] using hj
    rw [List.getD_eq_default _ _ h1, List.getD_eq_default _ _ hj]
    simp [Nat.not_lt_of_ge hj]

theorem foldl_set_length (idxs : List ℕ) (f : ℕ → α) (base : List α) :
    (idxs.foldl (fun a i => a.set i (f i)) base).length = base.length := by
  induction idxs generalizing base with
  | nil => rfl
  | cons x xs ih => simp [List.foldl_cons, ih, List.length_set]

theorem foldl_set_getD (idxs : List ℕ) (f : ℕ → α) (base : List α) (j : ℕ)
    (hj : j < base.length) :
    (idxs.foldl (fun a i => a.set i (f i)) base).getD j default
      = if j ∈ idxs then f j else base.getD j default := by
  induction idxs generalizing base with
  | nil => simp
  | cons x xs ih =>
    rw [List.foldl_cons, ih _ (by simpa [List.length_set] using hj)]
    by_cases hx : j ∈ xs
    · simp [hx]
    · by_cases hxj : x = j
      · subst hxj
        simp [hx, getD_set, hj]
      · have hne : ¬(j = x) := fun h => hxj h.symm
        rw [getD_set]
        simp [hx, hxj, hne]

theorem pySlice_length (l : List α) (a b : ℕ) :
    (pySlice l a b).length = min b l.length - a := by
  simp [pySlice, List.length_drop, List.length_take]

theorem pySlice_getD (l : List α) (a b j : ℕ)
    (hj : j < (pySlice l a b).length) :
    (pySlice l a b).getD j default = l.getD (a + j) default := by
  have hlen : j < (min b l.length) - a := by simpa [pySlice_length] using hj
  have haj : a + j < l.length := by omega
  have htake : a + j < (l.take b).length := by
    simp [List.length_take]; omega
  have hj' : j < ((l.take b).drop a).length := by
    simpa [pySlice, pySlice_length] using hj
  rw [pySlice, List.getD_eq_getElem _ _ hj', List.getElem_drop,
    List.getElem_take, List.getD_eq_getElem _ _ haj]

theorem pySlice_set_outside (l : List α) (a b p : ℕ) (c : α)
    (hp : p < a ∨ b ≤ p) :
    pySlice (l.set p c) a b = pySlice l a b := by
  apply List.ext_getElem
  · simp [pySlice_length, List.length_set]
  · intro j h₁ h₂
    have hl₁ : j < (pySlice (l.set p c) a b).length := h₁
    have hlen : j < (min b l.length) - a := by
      simpa [pySlice_length, List.length_set] using h₁
    rw [← List.getD_eq_getElem _ default h₁, ← List.getD_eq_getElem _ default h₂,
      pySlice_getD _ _ _ _ h₁, pySlice_getD _ _ _ _ h₂, getD_set]
    have : ¬(p = a + j ∧ a + j < l.length) := by
      rcases hp with h | h <;> omega
    simp [this]

theorem copySeg_length (child p1 : List α) (s e : ℕ) :
    (copySeg child p1 s e).length = child.length :=
  foldl_set_length _ _ _

theorem copySeg_getD (child p1 : List α) (s e j : ℕ) (hj : j < child.length) :
    (copySeg child p1 s e).getD j default
      = if s ≤ j ∧ j ≤ e then p1.getD j default else child.getD j default := by
  rw [copySeg, foldl_set_getD _ _ _ _ hj]
  by_cases h : s ≤ j ∧ j ≤ e
  · have : j ∈ List.range' s (e + 1 - s) := by
      rw [List.mem_range'_1]; omega
    simp [this, h]
  · have : j ∉ List.range' s (e + 1 - s) := by
      rw [List.mem_range'_1]; omega
    simp [this, h]

/-- The fill loop with the membership test already resolved: writes every
element of `fl` at consecutive positions mod `n`.  `fillLoop` reduces to this
once the tested slice is known to stay fixed (`fillLoop_eq_pureFill`). -/
def pureFill (n : ℕ) : List α → List α → ℕ → List α
  | [], child, _ => child
  | c :: cs, child, cur => pureFill n cs (child.set cur c) ((cur + 1) % n)

theorem pureFill_length (n : ℕ) (fl : List α) :
    ∀ (child : List α) (cur : ℕ), (pureFill n fl child cur).length = child.length := by
  induction fl with
  | nil => intro child cur; rfl
  | cons c cs ih =>
    intro child cur
    rw [show pureFill n (c :: cs) child cur
        = pureFill n cs (child.set cur c) ((cur + 1) % n) from rfl,
      ih, List.length_set]

theorem getD_take_lt (l : List α) (k i : ℕ) (h : i < k) :
    (l.take k).getD i default = l.getD i default := by
  rcases Nat.lt_or_ge i l.length with hi | hi
  · have h1 : i < (l.take k).length := by simp [List.length_take]; omega
    rw [List.getD_eq_getElem _ _ h1, List.getElem_take, List.getD_eq_getElem _ _ hi]
  · have h1 : (l.take k).length ≤ i := by simp [List.length_take]; omega
    rw [List.getD_eq_default _ _ h1, List.getD_eq_default _ _ hi]

theorem getD_drop_add (l : List α) (k i : ℕ) :
    (l.drop k).getD i default = l.getD (k + i) default := by
  rcases Nat.lt_or_ge (k + i) l.length with hi | hi
  · have h1 : i < (l.drop k).length := by simp [List.length_drop]; omega
    rw [List.getD_eq_getElem _ _ h1, List.getElem_drop, List.getD_eq_getElem _ _ hi]
  · have h1 : (l.drop k).length ≤ i := by simp [List.length_drop]; omega
    rw [List.getD_eq_default _ _ h1, List.getD_eq_default _ _ hi]

theorem pureFill_no_wrap (n : ℕ) (fl : List α) :
    ∀ (child : List α) (cur : ℕ),
      child.length = n → cur + fl.length ≤ n →
      ∀ j, j < n →
        (pureFill n fl child cur).getD j default
          = if cur ≤ j ∧ j < cur + fl.length then fl.getD (j - cur) default
            else child.getD j default := by
  induction fl with
  | nil =>
    intro child cur hlen _ j hj
    show child.getD j default = _
    have hne : ¬(cur ≤ j ∧ j < cur + ([] : List α).length) := by
      rintro ⟨h1, h2⟩
      simp at h2
      omega
    rw [if_neg hne]
  | cons c cs ih =>
    intro child cur hlen hbound j hj
    have hblen : cur + (cs.length + 1) ≤ n := by simpa using hbound
    rw [show pureFill n (c :: cs) child cur
        = pureFill n cs (child.set cur c) ((cur + 1) % n) from rfl]
    by_cases hcs : cs = []
    · subst hcs
      show (child.set cur c).getD j default = _
      rw [getD_set]
      by_cases hcj : cur = j
      · subst hcj
        have h2 : cur ≤ cur ∧ cur < cur + ((c :: []) : List α).length := by simp
        rw [if_pos h2]
        have : cur < child.length := by omega
        simp [this]
      · have hne : ¬(cur ≤ j ∧ j < cur + ((c :: []) : List α).length) := by
          rintro ⟨ha, hb⟩
          simp at hb
          omega
        rw [if_neg (show ¬(cur = j ∧ j < child.length) from fun h => hcj h.1),
          if_neg hne]
    · have hcs1 : 1 ≤ cs.length := by
        cases cs with
        | nil => exact absurd rfl hcs
        | cons _ _ => simp
      have hcur1 : cur + 1 < n := by omega
      rw [Nat.mod_eq_of_lt hcur1,
        ih (child.set cur c) (cur + 1) (by simp [List.length_set, hlen])
          (by omega) j hj, getD_set]
      by_cases h1 : cur + 1 ≤ j ∧ j < cur + 1 + cs.length
      · have h2 : cur ≤ j ∧ j < cur + ((c :: cs) : List α).length := by
          constructor
          · omega
          · simp
            omega
        have hj0 : j - cur = (j - (cur + 1)) + 1 := by omega
        rw [if_pos h1, if_pos h2, hj0]
        simp [List.getD_cons_succ]
      · by_cases hcj : cur = j
        · subst hcj
          have h2 : cur ≤ cur ∧ cur < cur + ((c :: cs) : List α).length := by simp
          have hcur_lt : cur < child.length := by omega
          rw [if_neg h1, if_pos h2]
          simp [hcur_lt]
        · have h2 : ¬(cur ≤ j ∧ j < cur + ((c :: cs) : List α).length) := by
            rintro ⟨ha, hb⟩
            simp at hb
            omega
          rw [if_neg h1, if_neg h2,
            if_neg (show ¬(cur = j ∧ j < child.length) from fun h => hcj h.1)]

theorem pureFill_append_exact (n : ℕ) (a : List α) :
    ∀ (b child : List α) (cur : ℕ),
      cur < n → cur + a.length = n →
      pureFill n (a ++ b) child cur = pureFill n b (pureFill n a child cur) 0 := by
  induction a with
  | nil =>
    intro b child cur hcur ha
    exfalso
    simp at ha
    omega
  | cons c cs ih =>
    intro b child cur hcur ha
    by_cases hcs : cs = []
    · subst hcs
      have hc1 : cur + 1 = n := by simpa using ha
      rw [show ((c :: []) ++ b : List α) = c :: b from rfl,
        show pureFill n (c :: b) child cur
          = pureFill n b (child.set cur c) ((cur + 1) % n) from rfl,
        hc1, Nat.mod_self,
        show pureFill n (c :: []) child cur
          = pureFill n ([] : List α) (child.set cur c) ((cur + 1) % n) from rfl,
        show pureFill n ([] : List α) (child.set cur c) ((cur + 1) % n)
          = child.set cur c from rfl]
    · have hcs1 : 1 ≤ cs.length := by
        cases cs with
        | nil => exact absurd rfl hcs
        | cons _ _ => simp
      have hlen : cur + (cs.length + 1) = n := by simpa using ha
      have hcur1 : cur + 1 < n := by omega
      rw [show ((c :: cs) ++ b : List α) = c :: (cs ++ b) from rfl,
        show pureFill n (c :: (cs ++ b)) child cur
          = pureFill n (cs ++ b) (child.set cur c) ((cur + 1) % n) from rfl,
        Nat.mod_eq_of_lt hcur1,
        ih b (child.set cur c) (cur + 1) hcur1 (by omega),
        show pureFill n (c :: cs) child cur
          = pureFill n cs (child.set cur c) ((cur + 1) % n) from rfl,
        Nat.mod_eq_of_lt hcur1]

theorem fillPos_outside (n s e w : ℕ) (hse : s ≤ e) (hen : e < n)
    (hw : w < n - (e + 1 - s)) :
    (e + 1 + w) % n < s ∨ e + 1 ≤ (e + 1 + w) % n := by
  rcases Nat.lt_or_ge (e + 1 + w) n with h | h
  · right
    rw [Nat.mod_eq_of_lt h]
    omega
  · left
    have h2 : e + 1 + w - n < n := by omega
    rw [Nat.mod_eq_sub_mod h, Nat.mod_eq_of_lt h2]
    omega

theorem fillLoop_eq_pureFill (n s e : ℕ) (seg : List α) (hse : s ≤ e)
    (hen : e < n) (rem : List α) :
    ∀ (child : List α) (w : ℕ),
      child.length = n →
      pySlice child s (e + 1) = seg →
      w + (rem.filter (fun c => decide (c ∉ seg))).length ≤ n - (e + 1 - s) →
      fillLoop n s e rem child ((e + 1 + w) % n)
        = pureFill n (rem.filter (fun c => decide (c ∉ seg))) child
            ((e + 1 + w) % n) := by
  induction rem with
  | nil =>
    intro child w _ _ _
    rfl
  | cons c cs ih =>
    intro child w hlen hseg hw
    by_cases hc : c ∈ seg
    · have hmem : c ∈ pySlice child s (e + 1) := by rw [hseg]; exact hc
      rw [show fillLoop n s e (c :: cs) child ((e + 1 + w) % n)
          = if c ∈ pySlice child s (e + 1)
            then fillLoop n s e cs child ((e + 1 + w) % n)
            else fillLoop n s e cs (child.set ((e + 1 + w) % n) c)
              (((e + 1 + w) % n + 1) % n) from rfl,
        if_pos hmem]
      have hfil : (c :: cs).filter (fun c => decide (c ∉ seg))
          = cs.filter (fun c => decide (c ∉ seg)) := by
        simp [List.filter_cons, hc]
      rw [hfil] at hw ⊢
      exact ih child w hlen hseg hw
    · have hmem : c ∉ pySlice child s (e + 1) := by rw [hseg]; exact hc
      have hfil : (c :: cs).filter (fun c => decide (c ∉ seg))
          = c :: cs.filter (fun c => decide (c ∉ seg)) := by
        simp [List.filter_cons, hc]
      rw [hfil] at hw ⊢
      have hwlt : w < n - (e + 1 - s) := by
        simp at hw
        omega
      have hnext : ((e + 1 + w) % n + 1) % n = (e + 1 + (w + 1)) % n := by
        rw [Nat.mod_add_mod, Nat.add_assoc]
      rw [show fillLoop n s e (c :: cs) child ((e + 1 + w) % n)
          = if c ∈ pySlice child s (e + 1)
            then fillLoop n s e cs child ((e + 1 + w) % n)
            else fillLoop n s e cs (child.set ((e + 1 + w) % n) c)
              (((e + 1 + w) % n + 1) % n) from rfl,
        if_neg hmem,
        show pureFill n (c :: cs.filter (fun c => decide (c ∉ seg))) child
            ((e + 1 + w) % n)
          = pureFill n (cs.filter (fun c => decide (c ∉ seg)))
              (child.set ((e + 1 + w) % n) c) (((e + 1 + w) % n + 1) % n)
          from rfl,
        hnext]
      have hout : (e + 1 + w) % n < s ∨ e + 1 ≤ (e + 1 + w) % n :=
        fillPos_outside n s e w hse hen hwlt
      exact ih (child.set ((e + 1 + w) % n) c) (w + 1)
        (by rw [List.length_set, hlen])
        (by rw [pySlice_set_outside _ _ _ _ _ hout, hseg])
        (by simp at hw ⊢; omega)

theorem pureFill_cyclic_getD (n s e : ℕ) (fl child : List α)
    (hse : s ≤ e) (hen : e < n) (hlen : child.length = n)
    (hfl : fl.length = n - (e + 1 - s)) (j : ℕ) (hj : j < n) :
    (pureFill n fl child ((e + 1) % n)).getD j default
      = if j < s then fl.getD (n - 1 - e + j) default
        else if j ≤ e then child.getD j default
        else fl.getD (j - e - 1) default := by
  rcases Nat.lt_or_ge (e + 1) n with hlt | hge
  · -- start position e + 1, fill wraps at n back to 0
    have hstart : (e + 1) % n = e + 1 := Nat.mod_eq_of_lt hlt
    have hlen1 : (fl.take (n - 1 - e)).length = n - 1 - e := by
      rw [List.length_take]
      omega
    have hlen2 : (fl.drop (n - 1 - e)).length = s := by
      rw [List.length_drop]
      omega
    have hM1len : (pureFill n (fl.take (n - 1 - e)) child (e + 1)).length = n := by
      rw [pureFill_length, hlen]
    have hdecomp : pureFill n fl child (e + 1)
        = pureFill n (fl.drop (n - 1 - e))
            (pureFill n (fl.take (n - 1 - e)) child (e + 1)) 0 := by
      conv_lhs => rw [← List.take_append_drop (n - 1 - e) fl]
      exact pureFill_append_exact n _ _ _ _ hlt (by omega)
    rw [hstart, hdecomp, pureFill_no_wrap n _ _ 0 hM1len (by omega) j hj]
    by_cases hjs : j < s
    · have hcond : 0 ≤ j ∧ j < 0 + (fl.drop (n - 1 - e)).length := by
        constructor
        · omega
        · omega
      rw [if_pos hcond, if_pos hjs]
      rw [show j - 0 = j from rfl, getD_drop_add]
    · have hcond : ¬(0 ≤ j ∧ j < 0 + (fl.drop (n - 1 - e)).length) := by
        rintro ⟨_, hb⟩
        omega
      rw [if_neg hcond, if_neg hjs,
        pureFill_no_wrap n _ _ _ hlen (by omega) j hj]
      by_cases hje : j ≤ e
      · have hcond2 : ¬(e + 1 ≤ j ∧ j < e + 1 + (fl.take (n - 1 - e)).length) := by
          rintro ⟨ha, _⟩
          omega
        rw [if_neg hcond2, if_pos hje]
      · have hcond2 : e + 1 ≤ j ∧ j < e + 1 + (fl.take (n - 1 - e)).length := by
          constructor
          · omega
          · omega
        rw [if_pos hcond2, if_neg hje, getD_take_lt _ _ _ (by omega),
          show j - (e + 1) = j - e - 1 from by omega]
  · -- e + 1 = n: the walk starts at position 0 and never wraps
    have hen1 : e + 1 = n := by omega
    have hstart : (e + 1) % n = 0 := by
      rw [hen1, Nat.mod_self]
    have hfl' : fl.length = s := by omega
    rw [hstart, pureFill_no_wrap n _ _ 0 hlen (by omega) j hj]
    by_cases hjs : j < s
    · have hcond : 0 ≤ j ∧ j < 0 + fl.length := by omega
      rw [if_pos hcond, if_pos hjs, show j - 0 = j from rfl]
      congr 1
      omega
    · have hcond : ¬(0 ≤ j ∧ j < 0 + fl.length) := by
        rintro ⟨_, hb⟩
        omega
      have hje : j ≤ e := by omega
      rw [if_neg hcond, if_neg hjs, if_pos hje]

theorem pySlice_sublist (l : List α) (a b : ℕ) : (pySlice l a b).Sublist l :=
  (List.drop_sublist _ _).trans (List.take_sublist _ _)

/-- Core account of `crossover`'s fill phase: starting from the
segment-copied child, walking `parent2` and inserting the cities missing
from the copied segment yields a permutation of the city set that agrees
with `parent1` on the segment. -/
theorem crossover_core (cities childInit p1r p2r : List α) (s e : ℕ)
    (hc : cities.Nodup) (h1 : p1r.Perm cities) (h2 : p2r.Perm cities)
    (hinit : childInit.length = cities.length) (hse : s ≤ e)
    (he : e < cities.length) :
    (fillLoop cities.length s e p2r (copySeg childInit p1r s e)
        ((e + 1) % cities.length)).Perm cities
    ∧ pySlice (fillLoop cities.length s e p2r (copySeg childInit p1r s e)
        ((e + 1) % cities.length)) s (e + 1) = pySlice p1r s (e + 1) := by
  have hp1len : p1r.length = cities.length := h1.length_eq
  have hp2len : p2r.length = cities.length := h2.length_eq
  have hp1nd : p1r.Nodup := h1.symm.nodup hc
  have hp2nd : p2r.Nodup := h2.symm.nodup hc
  set n := cities.length with hn
  set seg := pySlice p1r s (e + 1) with hsegdef
  set child1 := copySeg childInit p1r s e with hchild1def
  have hchild1len : child1.length = n := by
    rw [hchild1def, copySeg_length, hinit]
  have hseglen : seg.length = e + 1 - s := by
    rw [hsegdef, pySlice_length]
    omega
  have hsegsub : ∀ x ∈ seg, x ∈ p1r := fun x hx =>
    (pySlice_sublist p1r s (e + 1)).mem hx
  have hsegnd : seg.Nodup := (pySlice_sublist p1r s (e + 1)).nodup hp1nd
  -- the copied child agrees with parent1 on the slice
  have hslice1 : pySlice child1 s (e + 1) = seg := by
    apply List.ext_getElem
    · rw [hsegdef, pySlice_length, pySlice_length, hchild1len, hp1len]
    · intro j hA hB
      have hlenA : j < min (e + 1) n - s := by
        rw [pySlice_length, hchild1len] at hA
        exact hA
      rw [← List.getD_eq_getElem _ default hA, ← List.getD_eq_getElem _ default hB,
        pySlice_getD _ _ _ _ hA]
      rw [hsegdef] at hB ⊢
      rw [pySlice_getD _ _ _ _ hB, hchild1def,
        copySeg_getD _ _ _ _ _ (by rw [hinit]; omega),
        if_pos ⟨by omega, by omega⟩]
  -- the cities of parent2 missing from the segment
  set fl := p2r.filter (fun c => decide (c ∉ seg)) with hfldef
  have hinperm : p2r.filter (fun c => decide (c ∈ seg)) |>.Perm seg := by
    rw [List.perm_ext_iff_of_nodup (hp2nd.filter _) hsegnd]
    intro x
    rw [List.mem_filter]
    constructor
    · rintro ⟨_, hx⟩
      simpa using hx
    · intro hx
      refine ⟨?_, by simpa using hx⟩
      exact h2.symm.subset (h1.subset (hsegsub x hx))
  have hfl_len : fl.length = n - (e + 1 - s) := by
    have hnot : (fun c => decide (c ∉ seg)) = (fun c => !(decide (c ∈ seg))) := by
      funext c
      simp [decide_not]
    have hsum := (List.filter_append_perm (fun c => decide (c ∈ seg)) p2r).length_eq
    rw [List.length_append] at hsum
    have h1' : (p2r.filter (fun c => decide (c ∈ seg))).length = e + 1 - s := by
      rw [hinperm.length_eq, hseglen]
    rw [hfldef, hnot]
    omega
  -- fill loop = unconditional fill of the missing cities
  have hfill : fillLoop n s e p2r child1 ((e + 1) % n)
      = pureFill n fl child1 ((e + 1) % n) := by
    have h0 := fillLoop_eq_pureFill n s e seg hse he p2r child1 0 hchild1len hslice1
      (by rw [← hfldef]; omega)
    rw [show e + 1 + 0 = e + 1 from rfl] at h0
    rw [← hfldef] at h0
    exact h0
  -- indexwise description of the filled child
  have hchar : ∀ j, j < n →
      (pureFill n fl child1 ((e + 1) % n)).getD j default
        = if j < s then fl.getD (n - 1 - e + j) default
          else if j ≤ e then child1.getD j default
          else fl.getD (j - e - 1) default :=
    fun j hj => pureFill_cyclic_getD n s e fl child1 hse he hchild1len hfl_len j hj
  -- the filled child, written as an explicit concatenation
  have hdrop_len : (fl.drop (n - 1 - e)).length = s := by
    rw [List.length_drop]
    omega
  have htake_len : (fl.take (n - 1 - e)).length = n - 1 - e := by
    rw [List.length_take]
    omega
  have hE : pureFill n fl child1 ((e + 1) % n)
      = fl.drop (n - 1 - e) ++ (seg ++ fl.take (n - 1 - e)) := by
    apply List.ext_getElem
    · rw [pureFill_length, hchild1len, List.length_append, List.length_append,
        hdrop_len, hseglen, htake_len]
      omega
    · intro j hA hB
      have hjn : j < n := by
        rw [pureFill_length, hchild1len] at hA
        exact hA
      rw [← List.getD_eq_getElem _ default hA, ← List.getD_eq_getElem _ default hB,
        hchar j hjn]
      by_cases hjs : j < s
      · rw [if_pos hjs, List.getD_append _ _ _ _ (by omega), getD_drop_add]
      · rw [if_neg hjs, List.getD_append_right _ _ _ _ (by omega), hdrop_len]
        by_cases hje : j ≤ e
        · rw [if_pos hje, List.getD_append _ _ _ _ (by omega), hchild1def,
            copySeg_getD _ _ _ _ _ (by rw [hinit]; omega),
            if_pos ⟨by omega, by omega⟩, hsegdef,
            pySlice_getD _ _ _ _ (by rw [pySlice_length, hp1len]; omega),
            show s + (j - s) = j from by omega]
        · rw [if_neg hje, List.getD_append_right _ _ _ _ (by rw [hseglen]; omega),
            hseglen, getD_take_lt _ _ _ (by omega),
            show j - s - (e + 1 - s) = j - e - 1 from by omega]
  -- permutation with the city set
  have hpermE : (fl.drop (n - 1 - e) ++ (seg ++ fl.take (n - 1 - e))).Perm cities := by
    have hstep1 : (fl.drop (n - 1 - e) ++ (seg ++ fl.take (n - 1 - e))).Perm
        ((seg ++ fl.take (n - 1 - e)) ++ fl.drop (n - 1 - e)) :=
      List.perm_append_comm
    have hstep2 : (seg ++ fl.take (n - 1 - e)) ++ fl.drop (n - 1 - e)
        = seg ++ fl := by
      rw [List.append_assoc, List.take_append_drop]
    have hstep3 : (seg ++ fl).Perm p2r := by
      have hnot : (fun c => decide (c ∉ seg)) = (fun c => !(decide (c ∈ seg))) := by
        funext c
        simp [decide_not]
      have := List.filter_append_perm (fun c => decide (c ∈ seg)) p2r
      rw [← hnot] at this
      exact (hinperm.symm.append (List.Perm.refl fl)).trans this
    exact (hstep1.trans (hstep2 ▸ List.Perm.refl _)).trans (hstep3.trans h2)
  constructor
  · rw [hfill, hE]
    exact hpermE
  · rw [hfill]
    apply List.ext_getElem
    · rw [pySlice_length, pySlice_length, pureFill_length, hchild1len, hp1len]
    · intro j hA hB
      have hjlt : j < min (e + 1) n - s := by
        rw [pySlice_length, pureFill_length, hchild1len] at hA
        exact hA
      rw [← List.getD_eq_getElem _ default hA, ← List.getD_eq_getElem _ default hB,
        pySlice_getD _ _ _ _ hA, hchar (s + j) (by omega),
        if_neg (by omega), if_pos (by omega : s + j ≤ e), hchild1def,
        copySeg_getD _ _ _ _ _ (by rw [hinit]; omega),
        if_pos ⟨by omega, by omega⟩, ← pySlice_getD _ _ _ _ hB]

/-- Claim C3 core statement at the level of `crossover` itself. -/
theorem crossover_valid (d : α → α → ℚ) (cities childInit : List α)
    (p1 p2 : Route α) (s e : ℕ)
    (hc : cities.Nodup) (h1 : p1.route.Perm cities) (h2 : p2.route.Perm cities)
    (hinit : childInit.length = cities.length) (hse : s ≤ e)
    (he : e < cities.length) :
    (crossover d cities childInit p1 p2 s e).route.Perm cities
    ∧ pySlice (crossover d cities childInit p1 p2 s e).route s (e + 1)
        = pySlice p1.route s (e + 1) := by
  have hroute : (crossover d cities childInit p1 p2 s e).route
      = fillLoop cities.length s e p2.route (copySeg childInit p1.route s e)
          ((e + 1) % cities.length) := by
    unfold crossover
    simp [Nat.not_lt.mpr hse]
  rw [hroute]
  exact crossover_core cities childInit p1.route p2.route s e hc h1 h2 hinit hse he

/-! ### Population and generation evolution
(src/tsp/population.py, src/src/genetic_algorithm.py) -/

/-- Extracts the routes of a population whose slots are all filled.  A `none`
slot (a `RoutePop(initialise=False)` slot never written) would make the
Python `sort(key=lambda x: x.length)` raise; that failure is `none` here. -/
def allSomeList {β : Type} : List (Option β) → Option (List β)
  | [] => some []
  | none :: _ => none
  | some x :: xs => (allSomeList xs).map (x :: ·)

/-- The comparison `key=lambda x: x.length` used by `RoutePop.get_fittest`. -/
def routeLe (a b : Route α) : Bool :=
  decide (a.length ≤ b.length)

/-- Embeds `RoutePop.get_fittest`: stable-sort the slots ascending by cached
length and return the first. -/
def getFittest (l : List (Option (Route α))) : Option (Route α) :=
  match allSomeList l with
  | some rs => (rs.mergeSort routeLe).head?
  | none => none

/-- The population list after `get_fittest` ran (Python sorts `rt_pop` in
place, so later indexed reads see the sorted order). -/
def sortPop (l : List (Option (Route α))) : List (Option (Route α)) :=
  match allSomeList l with
  | some rs => (rs.mergeSort routeLe).map some
  | none => l

/-- One slot's worth of random draws consumed by the body of
`evolve_population`'s loop. -/
structure SlotRng (α : Type) where
  t1 : List ℕ
  t2 : List ℕ
  childInit : List α
  cutA : ℕ
  cutB : ℕ
  mutCoin : Bool
  mutShuffle : List α → List α
  mutPos1 : ℕ
  mutPos2 : ℕ

/-- Embeds `GeneticAlgorithm.tournament_selection`: `ids` are the
`random.randint(0, pop.size - 1)` draws; the drawn routes are collected and
the fittest is returned. -/
def tournament_selection (pop : List (Option (Route α))) (ids : List ℕ) :
    Option (Route α) :=
  getFittest (ids.map (fun i => pop.getD i none))

/-- The loop body of `evolve_population`: select two parents by tournament,
cross them over, and mutate the child with the drawn coin. -/
def mkChild (d : α → α → ℚ) (pop : List (Option (Route α))) (cities : List α)
    (rng : SlotRng α) : Option (Route α) :=
  match tournament_selection pop rng.t1, tournament_selection pop rng.t2 with
  | some parent1, some parent2 =>
    let child := crossover d cities rng.childInit parent1 parent2 rng.cutA rng.cutB
    some (if rng.mutCoin
      then mutate d child (rng.mutShuffle child.route) rng.mutPos1 rng.mutPos2
      else child)
  | _, _ => none

/-- Embeds `GeneticAlgorithm.evolve_population`.  With elitism the old
population's fittest is stored in slot 0 (`save_route(0, pop.get_fittest())`,
which also leaves `pop` sorted for the subsequent tournament reads), and the
loop `for i in range(elitism_offset, new_population.size)` fills the
remaining slots with children. -/
def evolve_population (d : α → α → ℚ) (elitism : Bool)
    (pop : List (Option (Route α))) (cities : List α)
    (rngs : ℕ → SlotRng α) : List (Option (Route α)) :=
  let size := pop.length
  let base := List.replicate size (none : Option (Route α))
  if elitism then
    let sorted := sortPop pop
    let base1 := base.set 0 (getFittest pop)
    (List.range' 1 (size - 1)).foldl
      (fun acc i => acc.set i (mkChild d sorted cities (rngs i))) base1
  else
    (List.range' 0 size).foldl
      (fun acc i => acc.set i (mkChild d pop cities (rngs i))) base

theorem allSomeList_eq_some {β : Type} (l : List (Option β)) (rs : List β) :
    allSomeList l = some rs ↔ l = rs.map some := by
  induction l generalizing rs with
  | nil =>
    cases rs with
    | nil => simp [allSomeList]
    | cons y ys => simp [allSomeList]
  | cons o os ih =>
    cases o with
    | none =>
      simp only [allSomeList, false_iff]
      constructor
      · intro h
        exact Option.noConfusion h
      · intro h
        cases rs with
        | nil => simp at h
        | cons y ys => simp at h
    | some x =>
      cases rs with
      | nil =>
        simp [allSomeList]
      | cons y ys =>
        constructor
        · intro h
          simp only [allSomeList] at h
          rcases hos : allSomeList os with _ | zs
          · rw [hos] at h
            simp at h
          · rw [hos, Option.map_some'] at h
            have hinj := List.cons.injEq x zs y ys ▸ (Option.some.injEq _ _ ▸ h)
            have h2 : x :: zs = y :: ys := by
              exact Option.some.inj h
            have hx : x = y := (List.cons.injEq _ _ _ _ ▸ h2).1
            have hz : zs = ys := (List.cons.injEq _ _ _ _ ▸ h2).2
            rw [List.map_cons, hx, (ih zs).mp hos, hz]
        · intro h
          have hx : some x = some y := (List.cons.injEq _ _ _ _ ▸ h).1
          have hos : os = ys.map some := (List.cons.injEq _ _ _ _ ▸ h).2
          simp only [allSomeList, (ih ys).mpr hos, Option.map_some']
          rw [Option.some.inj hx]

theorem allSomeList_of_isSome {β : Type} (l : List (Option β))
    (h : ∀ o ∈ l, o.isSome) : ∃ rs, allSomeList l = some rs := by
  induction l with
  | nil => exact ⟨[], rfl⟩
  | cons o os ih =>
    cases o with
    | none =>
      have := h none (by simp)
      simp at this
    | some x =>
      obtain ⟨rs, hrs⟩ := ih (fun o ho => h o (by simp [ho]))
      exact ⟨x :: rs, by simp [allSomeList, hrs]⟩

theorem head_mergeSort_min (rs : List (Route α)) (hne : rs ≠ []) :
    ∃ m, (rs.mergeSort routeLe).head? = some m
      ∧ ∀ x ∈ rs, m.length ≤ x.length := by
  have hperm := List.mergeSort_perm rs routeLe
  have hsorted := @List.sorted_mergeSort _ routeLe
    (fun a b c hab hbc => by
      simp [routeLe] at hab hbc ⊢
      exact le_trans hab hbc)
    (fun a b => by
      simp [routeLe]
      exact le_total _ _)
    rs
  have hlen : (rs.mergeSort routeLe).length = rs.length := hperm.length_eq
  rcases hms : rs.mergeSort routeLe with _ | ⟨m, t⟩
  · exfalso
    rw [hms] at hlen
    simp at hlen
    exact hne (List.length_eq_zero.mp hlen.symm)
  · refine ⟨m, rfl, ?_⟩
    intro x hx
    have hxms : x ∈ m :: t := by
      rw [← hms]
      exact hperm.symm.subset hx
    rcases List.mem_cons.mp hxms with hxm | hxt
    · rw [hxm]
    · rw [hms] at hsorted
      have := (List.pairwise_cons.mp hsorted).1 x hxt
      simpa [routeLe] using this

theorem getFittest_isSome (l : List (Option (Route α))) (hne : l ≠ [])
    (hall : ∀ o ∈ l, o.isSome) :
    ∃ r, getFittest l = some r := by
  obtain ⟨rs, hrs⟩ := allSomeList_of_isSome l hall
  have hlrs : l = rs.map some := (allSomeList_eq_some l rs).mp hrs
  have hrsne : rs ≠ [] := by
    intro h
    rw [h] at hlrs
    exact hne (by simpa using hlrs)
  obtain ⟨m, hm, _⟩ := head_mergeSort_min rs hrsne
  refine ⟨m, ?_⟩
  unfold getFittest
  rw [hrs]
  exact hm

theorem evolve_population_elitism_monotone (d : α → α → ℚ)
    (pop : List (Option (Route α))) (cities : List α) (rngs : ℕ → SlotRng α)
    (hne : pop ≠ [])
    (hall : ∀ o ∈ pop, o.isSome)
    (hrng : ∀ i, (rngs i).t1 ≠ [] ∧ (∀ id ∈ (rngs i).t1, id < pop.length)
      ∧ (rngs i).t2 ≠ [] ∧ (∀ id ∈ (rngs i).t2, id < pop.length)) :
    ∃ rNew rOld,
      getFittest (evolve_population d true pop cities rngs) = some rNew
      ∧ getFittest pop = some rOld
      ∧ rNew.length ≤ rOld.length := by
  obtain ⟨rs, hrs⟩ := allSomeList_of_isSome pop hall
  have hlrs : pop = rs.map some := (allSomeList_eq_some _ _).mp hrs
  have hrsne : rs ≠ [] := by
    intro h
    apply hne
    rw [hlrs, h]
    rfl
  obtain ⟨m, hm, hmmin⟩ := head_mergeSort_min rs hrsne
  have hfit : getFittest pop = some m := by
    unfold getFittest
    rw [hrs]
    exact hm
  have hsort : sortPop pop = (rs.mergeSort routeLe).map some := by
    unfold sortPop
    rw [hrs]
  have hsortlen : (sortPop pop).length = pop.length := by
    rw [hsort, List.length_map, (List.mergeSort_perm rs routeLe).length_eq,
      hlrs, List.length_map]
  have hsortall : ∀ o ∈ sortPop pop, o.isSome := by
    rw [hsort]
    intro o ho
    obtain ⟨r, _, hr⟩ := List.mem_map.mp ho
    rw [← hr]
    rfl
  have htourn : ∀ (ids : List ℕ), ids ≠ [] → (∀ id ∈ ids, id < pop.length) →
      ∃ r, tournament_selection (sortPop pop) ids = some r := by
    intro ids hne2 hlt
    unfold tournament_selection
    apply getFittest_isSome
    · intro h
      exact hne2 (List.map_eq_nil_iff.mp h)
    · intro o ho
      obtain ⟨i, hi, hio⟩ := List.mem_map.mp ho
      rw [← hio]
      have hilt : i < (sortPop pop).length := by
        rw [hsortlen]
        exact hlt i hi
      rw [List.getD_eq_getElem _ _ hilt]
      exact hsortall _ (List.getElem_mem hilt)
  have hchild : ∀ i, ∃ r, mkChild d (sortPop pop) cities (rngs i) = some r := by
    intro i
    obtain ⟨h1, h2, h3, h4⟩ := hrng i
    obtain ⟨r1, hr1⟩ := htourn _ h1 h2
    obtain ⟨r2, hr2⟩ := htourn _ h3 h4
    have hsome : (mkChild d (sortPop pop) cities (rngs i)).isSome := by
      unfold mkChild
      rw [hr1, hr2]
      rfl
    exact Option.isSome_iff_exists.mp hsome
  have hszpos : 0 < pop.length := by
    cases pop with
    | nil => exact absurd rfl hne
    | cons _ _ => simp
  have hbase1len : ((List.replicate pop.length (none : Option (Route α))).set 0
      (getFittest pop)).length = pop.length := by
    rw [List.length_set, List.length_replicate]
  have hnew : evolve_population d true pop cities rngs
      = (List.range' 1 (pop.length - 1)).foldl
          (fun acc i => acc.set i (mkChild d (sortPop pop) cities (rngs i)))
          ((List.replicate pop.length none).set 0 (getFittest pop)) := rfl
  have hgetD : ∀ j, j < pop.length →
      (evolve_population d true pop cities rngs).getD j default
        = if j ∈ List.range' 1 (pop.length - 1)
          then mkChild d (sortPop pop) cities (rngs j)
          else ((List.replicate pop.length none).set 0 (getFittest pop)).getD j default := by
    intro j hj
    rw [hnew]
    exact foldl_set_getD _ _ _ j (by rw [hbase1len]; exact hj)
  have hlen_new : (evolve_population d true pop cities rngs).length = pop.length := by
    rw [hnew, foldl_set_length, hbase1len]
  have hslot0 : (evolve_population d true pop cities rngs).getD 0 default = some m := by
    rw [hgetD 0 hszpos]
    have h0 : (0 : ℕ) ∉ List.range' 1 (pop.length - 1) := by
      rw [List.mem_range'_1]
      omega
    rw [if_neg h0, getD_set,
      if_pos ⟨rfl, by rw [List.length_replicate]; exact hszpos⟩, hfit]
  have hallnew : ∀ o ∈ evolve_population d true pop cities rngs, o.isSome := by
    intro o ho
    obtain ⟨j, hj, hjo⟩ := List.mem_iff_getElem.mp ho
    have hjsize : j < pop.length := by
      rw [← hlen_new]
      exact hj
    have hgd : (evolve_population d true pop cities rngs).getD j default = o := by
      rw [List.getD_eq_getElem _ _ hj]
      exact hjo
    rw [← hgd, hgetD j hjsize]
    by_cases hjr : j ∈ List.range' 1 (pop.length - 1)
    · rw [if_pos hjr]
      obtain ⟨r, hr⟩ := hchild j
      rw [hr]
      rfl
    · rw [if_neg hjr]
      have hj0 : j = 0 := by
        rw [List.mem_range'_1] at hjr
        omega
      rw [hj0, getD_set,
        if_pos ⟨rfl, by rw [List.length_replicate]; exact hszpos⟩, hfit]
      rfl
  obtain ⟨rsN, hrsN⟩ := allSomeList_of_isSome _ hallnew
  have hlrsN : evolve_population d true pop cities rngs = rsN.map some :=
    (allSomeList_eq_some _ _).mp hrsN
  have hrsNne : rsN ≠ [] := by
    intro h
    rw [h] at hlrsN
    have := hlen_new
    rw [hlrsN] at this
    simp at this
    omega
  obtain ⟨mN, hmN, hminN⟩ := head_mergeSort_min rsN hrsNne
  have hfitN : getFittest (evolve_population d true pop cities rngs) = some mN := by
    unfold getFittest
    rw [hrsN]
    exact hmN
  have hmem : some m ∈ evolve_population d true pop cities rngs := by
    have h0lt : 0 < (evolve_population d true pop cities rngs).length := by
      rw [hlen_new]
      exact hszpos
    rw [← hslot0, List.getD_eq_getElem _ _ h0lt]
    exact List.getElem_mem h0lt
  have hmrsN : m ∈ rsN := by
    rw [hlrsN] at hmem
    obtain ⟨r, hr, hrm⟩ := List.mem_map.mp hmem
    rw [← Option.some.inj hrm]
    exact hr
  exact ⟨mN, m, hfitN, hfit, hminN m hmrsN⟩

/-! ### Branch and bound (src/src/branch_and_bound.py)

Matrix entries are `WithTop ℚ` (`⊤` embeds `np.inf`); matrices are lists of
row lists, as in the `numpy` array the Python code indexes. -/

/-- Matrix entries: rationals extended with `np.inf`. -/
abbrev QInf := WithTop ℚ

/-- `matrix[i][j]` (out-of-range reads never occur on the square matrices the
solver builds; the defaults are arbitrary). -/
def mget (m : List (List QInf)) (i j : ℕ) : QInf :=
  (m.getD i []).getD j ⊤

/-- `numpy` subtraction of a finite scalar: `inf - m = inf`. -/
def wsub (x : QInf) (mv : ℚ) : QInf :=
  WithTop.map (fun q => q - mv) x

/-- The scanning loop of `BranchNode.rmin` / `BranchNode.cmin`:
`if v == 0: min_val = 0; break` / `if v < min_val: min_val = v`. -/
def scanMin : List QInf → QInf → QInf
  | [], acc => acc
  | x :: xs, acc =>
    if x = 0 then 0
    else if x < acc then scanMin xs x else scanMin xs acc

/-- One row's minimum as computed by `rmin`/`cmin`, including the final
`if min_val == np.inf: min_val = 0`. -/
def rowMinVal (row : List QInf) : ℚ :=
  WithTop.untop' 0 (scanMin row ⊤)

/-- Embeds `BranchNode.rmin`. -/
def rmin (m : List (List QInf)) : List ℚ :=
  m.map rowMinVal

/-- Column `j` of the matrix, in the top-to-bottom order `cmin` scans. -/
def colGet (m : List (List QInf)) (j : ℕ) : List QInf :=
  m.map (fun row => row.getD j ⊤)

/-- Embeds `BranchNode.cmin`. -/
def cmin (m : List (List QInf)) : List ℚ :=
  (List.range m.length).map (fun j => rowMinVal (colGet m j))

/-- `for i: for j: matrix[i][j] -= m1[i]` — subtract each row's minimum. -/
def rowSub (m : List (List QInf)) (mins : List ℚ) : List (List QInf) :=
  List.zipWith (fun row mi => row.map (fun x => wsub x mi)) m mins

/-- `for j: for i: matrix[i][j] -= m2[j]` — subtract each column's minimum. -/
def colSub (m : List (List QInf)) (mins : List ℚ) : List (List QInf) :=
  m.map (fun row => List.zipWith (fun x mj => wsub x mj) row mins)

/-- Embeds `BranchNode`: reduced matrix, the subtracted row and column
minima, and `value = sum(rminval) + sum(cminval)`. -/
structure BranchNode where
  matrix : List (List QInf)
  rminval : List ℚ
  cminval : List ℚ
  value : ℚ
deriving Repr

/-- Embeds `BranchNode.__init__` together with `BranchNode.matchange` (the
constructor immediately calls `matchange` and then sets `value`). -/
def mkBranchNode (matr : List (List QInf)) : BranchNode :=
  let m1 := rmin matr
  let step1 := rowSub matr m1
  let m2 := cmin step1
  let step2 := colSub step1 m2
  ⟨step2, m1, m2, m1.sum + m2.sum⟩

/-- Embeds `BranchNode.est`. -/
def est (m : List (List QInf)) : ℚ :=
  (rmin m).sum + (cmin m).sum

/-- The inner `for k in range(n)` of `BranchNode.evalz`, computing
`(minx, miny)` for a zero cell `(i, j)`. -/
def innerMins (m : List (List QInf)) (n i j : ℕ) : QInf × QInf :=
  (List.range n).foldl
    (fun (p : QInf × QInf) k =>
      let miny := if mget m i k < p.2 ∧ k ≠ j then mget m i k else p.2
      let minx := if mget m k j < p.1 ∧ k ≠ i then mget m k j else p.1
      (minx, miny))
    (⊤, ⊤)

/-- Embeds `BranchNode.evalz`: pick the zero cell with the largest
row-plus-column penalty, first occurrence in row-major order winning ties. -/
def evalz (m : List (List QInf)) : ℕ × ℕ :=
  let n := m.length
  ((List.range n).foldl (fun (st : QInf × ℕ × ℕ) i =>
      (List.range n).foldl (fun st j =>
        if mget m i j = 0 then
          let p := innerMins m n i j
          if p.1 + p.2 > st.1 then (p.1 + p.2, i, j) else st
        else st) st)
    (0, 0, 0)).2

/-- `matrix[i][j] = v` on the list-of-rows representation. -/
def setEntry (m : List (List QInf)) (i j : ℕ) (v : QInf) : List (List QInf) :=
  m.set i ((m.getD i []).set j v)

/-- Embeds `BranchNode.getbranch`: build the exclude-edge matrix `an1` and
the include-edge matrix `an2`, estimate both, and keep the smaller estimate
(`an2` only when `e1 > e2`). -/
def getbranch (m : List (List QInf)) (di dj : ℕ) : List (List QInf) × ℚ :=
  let an1 := (setEntry m dj di ⊤).mapIdx
    (fun i row => row.mapIdx (fun j x => if i = di ∨ j = dj then ⊤ else x))
  let an2 := setEntry m di dj ⊤
  let e1 := est an1
  let e2 := est an2
  if e1 > e2 then (an2, e2) else (an1, e1)

/-- Embeds the `while size > 1` loop of `BranchAndBound.run`: repeatedly pick
the pivot, branch, and accumulate the returned estimate into `e0`. -/
def bnbLoop : ℕ → List (List QInf) → ℚ → ℚ
  | 0, _, e0 => e0
  | Nat.succ k, m, e0 =>
    if k = 0 then e0
    else
      let p := evalz m
      let q := getbranch m p.1 p.2
      bnbLoop k q.1 (e0 + q.2)

/-- Embeds the cost-matrix construction of `BranchAndBound.run`:
`cities[i].distance_to[cities[j].name]` off the diagonal, `np.inf` on it. -/
def costMatrix (d : α → α → ℚ) (cities : List α) : List (List QInf) :=
  (List.range cities.length).map (fun i =>
    (List.range cities.length).map (fun j =>
      if i ≠ j then ((d (cities.getD i default) (cities.getD j default) : ℚ) : QInf)
      else ⊤))

/-- One step of the nearest-neighbour walk: the scan
`if not visited[j] and cost_matrix[current][j] < min_dist`.  `none` plays the
Python sentinel `next_city = -1`. -/
def nnStep (cm : List (List QInf)) (n cur : ℕ) (visited : List Bool) : Option ℕ :=
  ((List.range n).foldl (fun (st : QInf × Option ℕ) j =>
      if visited.getD j true = false ∧ mget cm cur j < st.1
      then (mget cm cur j, some j) else st)
    (⊤, none)).2

/-- The nearest-neighbour tour-construction loop of `BranchAndBound.run`,
returning the visited indices in order (a sentinel `-1`, Python's
`cities[-1]`, resolves to the last index `n - 1`). -/
def nnWalk (cm : List (List QInf)) (n : ℕ) : List ℕ :=
  ((List.range (n - 1)).foldl (fun (st : List ℕ × List Bool × ℕ) _ =>
      let next := nnStep cm n st.2.2 st.2.1
      let idx := next.getD (n - 1)
      (st.1 ++ [idx], st.2.1.set idx true, idx))
    ([0], (List.replicate n false).set 0 true, 0)).1

/-- Embeds `BranchAndBound.run` (minus wall-clock measurement): build the
cost matrix, run the reduction/branching loop to completion, construct the
nearest-neighbour index walk, and wrap it in `Route(route)` — whose
constructor re-samples, so `shuffle` is that final `random.sample` draw.
Returns the stored `(self.best_route, self.best_length)` pair.  The
`time_limit` parameter is accepted, as in the source, and read nowhere. -/
def bnbRun (d : α → α → ℚ) (cities : List α) (shuffle : List α → List α)
    (time_limit : ℚ) : Route α × ℚ :=
  let n := cities.length
  let cm := costMatrix d cities
  let node := mkBranchNode cm
  let e0 := node.value
  let e0' := bnbLoop n node.matrix e0
  let nnIdx := nnWalk cm n
  let routeCities := nnIdx.map (fun i => cities.getD i default)
  (mkRoute d (shuffle routeCities), e0')

/-- The nearest-neighbour tour itself (the list the Python code names
`route` just before `Route(route)` discards its order). -/
def nnTour (d : α → α → ℚ) (cities : List α) : List α :=
  (nnWalk (costMatrix d cities) cities.length).map (fun i => cities.getD i default)

/-! ### Properties of the matrix reduction (claim C5) -/

theorem scanMin_zero (l : List QInf) (h : (0 : QInf) ∈ l) :
    ∀ acc, scanMin l acc = 0 := by
  induction l with
  | nil => simp at h
  | cons x xs ih =>
    intro acc
    by_cases hx : x = 0
    · simp [scanMin, hx]
    · have hxs : (0 : QInf) ∈ xs := by
        rcases List.mem_cons.mp h with h1 | h1
        · exact absurd h1.symm hx
        · exact h1
      by_cases hlt : x < acc
      · simp [scanMin, hx, hlt, ih hxs]
      · simp [scanMin, hx, hlt, ih hxs]

theorem scanMin_props (l : List QInf) :
    ∀ acc, (∀ x ∈ l, (0 : QInf) ≤ x) → (0 : QInf) ≤ acc →
      (0 : QInf) ≤ scanMin l acc ∧ scanMin l acc ≤ acc
        ∧ ∀ x ∈ l, scanMin l acc ≤ x := by
  induction l with
  | nil =>
    intro acc _ hacc
    exact ⟨hacc, le_refl _, by simp⟩
  | cons x xs ih =>
    intro acc hpos hacc
    have hx0 : (0 : QInf) ≤ x := hpos x (by simp)
    have hxs : ∀ y ∈ xs, (0 : QInf) ≤ y := fun y hy => hpos y (by simp [hy])
    by_cases hx : x = 0
    · rw [show scanMin (x :: xs) acc = 0 from by simp [scanMin, hx]]
      exact ⟨le_refl _, hacc, fun y hy => hpos y hy⟩
    · by_cases hlt : x < acc
      · have h := ih x hxs hx0
        rw [show scanMin (x :: xs) acc = scanMin xs x from by
          simp [scanMin, hx, hlt]]
        refine ⟨h.1, le_trans h.2.1 (le_of_lt hlt), ?_⟩
        intro y hy
        rcases List.mem_cons.mp hy with rfl | hy'
        · exact h.2.1
        · exact h.2.2 y hy'
      · have h := ih acc hxs hacc
        rw [show scanMin (x :: xs) acc = scanMin xs acc from by
          simp [scanMin, hx, hlt]]
        refine ⟨h.1, h.2.1, ?_⟩
        intro y hy
        rcases List.mem_cons.mp hy with rfl | hy'
        · exact le_trans h.2.1 (not_lt.mp hlt)
        · exact h.2.2 y hy'

theorem scanMin_mem (l : List QInf) :
    ∀ acc, scanMin l acc = acc ∨ scanMin l acc ∈ l := by
  induction l with
  | nil =>
    intro acc
    left
    rfl
  | cons x xs ih =>
    intro acc
    by_cases hx : x = 0
    · right
      rw [show scanMin (x :: xs) acc = 0 from by simp [scanMin, hx], ← hx]
      exact List.mem_cons_self x xs
    · by_cases hlt : x < acc
      · rw [show scanMin (x :: xs) acc = scanMin xs x from by
          simp [scanMin, hx, hlt]]
        rcases ih x with h | h
        · right
          rw [h]
          exact List.mem_cons_self x xs
        · right
          exact List.mem_cons_of_mem _ h
      · rw [show scanMin (x :: xs) acc = scanMin xs acc from by
          simp [scanMin, hx, hlt]]
        rcases ih acc with h | h
        · left
          exact h
        · right
          exact List.mem_cons_of_mem _ h

theorem coe_untop'_zero_le (s : QInf) :
    (((WithTop.untop' 0 s : ℚ)) : QInf) ≤ s ∨ s = ⊤ := by
  cases s with
  | none => right; rfl
  | some q => left; rfl

theorem rowMinVal_le (row : List QInf) (hpos : ∀ x ∈ row, (0 : QInf) ≤ x)
    (x : QInf) (hx : x ∈ row) :
    ((rowMinVal row : ℚ) : QInf) ≤ x := by
  have hle := (scanMin_props row ⊤ hpos le_top).2.2 x hx
  unfold rowMinVal
  cases hs : scanMin row ⊤ with
  | none =>
    rw [hs] at hle
    rw [top_le_iff.mp hle]
    exact le_top
  | some q =>
    rw [hs] at hle
    exact hle

theorem rowMinVal_zero_of_mem (row : List QInf) (h : (0 : QInf) ∈ row) :
    rowMinVal row = 0 := by
  unfold rowMinVal
  rw [scanMin_zero row h ⊤]
  rfl

theorem rowMinVal_attained (row : List QInf)
    (hpos : ∀ x ∈ row, (0 : QInf) ≤ x) (hfin : ∃ x ∈ row, x ≠ ⊤) :
    ((rowMinVal row : ℚ) : QInf) ∈ row := by
  obtain ⟨x, hx, hxt⟩ := hfin
  have hle := (scanMin_props row ⊤ hpos le_top).2.2 x hx
  have hne : scanMin row ⊤ ≠ ⊤ := by
    intro h
    rw [h] at hle
    exact hxt (top_le_iff.mp hle)
  rcases scanMin_mem row ⊤ with h | h
  · exact absurd h hne
  · have hcoe : ((rowMinVal row : ℚ) : QInf) = scanMin row ⊤ := by
      unfold rowMinVal
      cases hs : scanMin row ⊤ with
      | none => exact absurd hs hne
      | some q => rfl
    rw [hcoe]
    exact h

theorem wsub_top (v : ℚ) : wsub ⊤ v = ⊤ := rfl

theorem wsub_coe (q v : ℚ) : wsub (q : QInf) v = ((q - v : ℚ) : QInf) := rfl

theorem wsub_eq_top_iff (x : QInf) (v : ℚ) : wsub x v = ⊤ ↔ x = ⊤ := by
  cases x with
  | none => exact ⟨fun _ => rfl, fun _ => rfl⟩
  | some q =>
    constructor
    · intro h
      exact absurd (show some (q - v) = (none : Option ℚ) from h)
        (fun hh => Option.noConfusion hh)
    · intro h
      exact absurd (show some q = (none : Option ℚ) from h)
        (fun hh => Option.noConfusion hh)

theorem rowSub_length (m : List (List QInf)) (mins : List ℚ) :
    (rowSub m mins).length = min m.length mins.length := by
  simp [rowSub]

theorem rmin_length (m : List (List QInf)) : (rmin m).length = m.length := by
  simp [rmin]

theorem colGet_length (m : List (List QInf)) (j : ℕ) :
    (colGet m j).length = m.length := by
  simp [colGet]

theorem cmin_length (m : List (List QInf)) : (cmin m).length = m.length := by
  simp [cmin]

theorem colSub_length (m : List (List QInf)) (mins : List ℚ) :
    (colSub m mins).length = m.length := by
  simp [colSub]

theorem colGet_getD (m : List (List QInf)) (j i : ℕ) (hi : i < m.length) :
    (colGet m j).getD i ⊤ = (m.getD i []).getD j ⊤ := by
  have h1 : i < (colGet m j).length := by rw [colGet_length]; exact hi
  rw [List.getD_eq_getElem _ _ h1, List.getD_eq_getElem _ _ hi]
  simp only [colGet, List.getElem_map]

theorem wsub_zero_zero : wsub (0 : QInf) 0 = 0 := by
  rw [show (0 : QInf) = ((0 : ℚ) : QInf) from rfl, wsub_coe]
  norm_num

/-- Claims C5's content, phrased on `mkBranchNode`: the stored `value` is the
total subtracted, and after the reduction every row (resp. column) that
still has a finite entry contains a zero. -/
theorem mkBranchNode_spec (m : List (List QInf))
    (hsq : ∀ row ∈ m, row.length = m.length)
    (hpos : ∀ row ∈ m, ∀ x ∈ row, (0 : QInf) ≤ x) :
    (mkBranchNode m).value
        = (mkBranchNode m).rminval.sum + (mkBranchNode m).cminval.sum
    ∧ (mkBranchNode m).rminval = rmin m
    ∧ (mkBranchNode m).cminval = cmin (rowSub m (rmin m))
    ∧ (∀ row ∈ (mkBranchNode m).matrix, (∃ x ∈ row, x ≠ ⊤) → (0 : QInf) ∈ row)
    ∧ (∀ j, j < m.length →
        (∃ x ∈ colGet (mkBranchNode m).matrix j, x ≠ ⊤) →
        (0 : QInf) ∈ colGet (mkBranchNode m).matrix j) := by
  set n := m.length with hn
  set step1 := rowSub m (rmin m) with hstep1
  set step2 := colSub step1 (cmin step1) with hstep2
  have hmat : (mkBranchNode m).matrix = step2 := rfl
  have hstep1len : step1.length = n := by
    rw [hstep1, rowSub_length, rmin_length]
    exact Nat.min_self n
  have hstep2len : step2.length = n := by
    rw [hstep2, colSub_length, hstep1len]
  have hrowlen_m : ∀ i, i < n → (m.getD i []).length = n := by
    intro i hi
    rw [List.getD_eq_getElem _ _ hi]
    exact hsq _ (List.getElem_mem hi)
  have hpos_m : ∀ i, i < n → ∀ x ∈ m.getD i [], (0 : QInf) ≤ x := by
    intro i hi x hx
    rw [List.getD_eq_getElem _ _ hi] at hx
    exact hpos _ (List.getElem_mem hi) x hx
  have hrow1 : ∀ i, i < n →
      step1.getD i [] = (m.getD i []).map (fun x => wsub x (rowMinVal (m.getD i []))) := by
    intro i hi
    have h1 : i < step1.length := by rw [hstep1len]; exact hi
    have h2 : i < (rmin m).length := by rw [rmin_length]; exact hi
    simp only [List.getD_eq_getElem _ _ h1, List.getD_eq_getElem _ _ hi,
      hstep1, rowSub, List.getElem_zipWith, rmin, List.getElem_map]
    have h1' : i < (List.zipWith (fun row mi => List.map (fun x => wsub x mi) row)
        m (List.map rowMinVal m)).length := by
      rw [List.length_zipWith, List.length_map]
      omega
    rw [List.getD_eq_getElem _ _ h1', List.getElem_zipWith, List.getElem_map]
  have hrowlen1 : ∀ i, i < n → (step1.getD i []).length = n := by
    intro i hi
    rw [hrow1 i hi, List.length_map, hrowlen_m i hi]
  have hpos1 : ∀ i, i < n → ∀ y ∈ step1.getD i [], (0 : QInf) ≤ y := by
    intro i hi y hy
    rw [hrow1 i hi] at hy
    obtain ⟨x, hx, hxy⟩ := List.mem_map.mp hy
    rw [← hxy]
    cases x with
    | none => exact le_top
    | some q =>
      have hvle : ((rowMinVal (m.getD i []) : ℚ) : QInf) ≤ (some q : QInf) :=
        rowMinVal_le _ (hpos_m i hi) _ hx
      have hq : rowMinVal (m.getD i []) ≤ q := by
        rwa [show (some q : QInf) = ((q : ℚ) : QInf) from rfl,
          WithTop.coe_le_coe] at hvle
      show (0 : QInf) ≤ wsub (some q) (rowMinVal (m.getD i []))
      rw [show wsub (some q) (rowMinVal (m.getD i []))
          = (((q - rowMinVal (m.getD i []) : ℚ)) : QInf) from rfl,
        ← WithTop.coe_zero, WithTop.coe_le_coe]
      linarith
  have hzero1 : ∀ i, i < n → (∃ x ∈ m.getD i [], x ≠ ⊤) →
      (0 : QInf) ∈ step1.getD i [] := by
    intro i hi hfin
    have hmem := rowMinVal_attained _ (hpos_m i hi) hfin
    rw [hrow1 i hi]
    refine List.mem_map.mpr ⟨_, hmem, ?_⟩
    rw [wsub_coe]
    simp
  have hfin1 : ∀ i, i < n → ∀ j, j < n →
      ((step1.getD i []).getD j ⊤ = ⊤ ↔ (m.getD i []).getD j ⊤ = ⊤) := by
    intro i hi j hj
    have hjm : j < (m.getD i []).length := by rw [hrowlen_m i hi]; exact hj
    have hjmap : j < ((m.getD i []).map
        (fun x => wsub x (rowMinVal (m.getD i [])))).length := by
      rw [List.length_map]
      exact hjm
    rw [hrow1 i hi, List.getD_eq_getElem _ _ hjmap, List.getElem_map,
      List.getD_eq_getElem _ _ hjm]
    exact wsub_eq_top_iff _ _
  have hposcol1 : ∀ j, ∀ y ∈ colGet step1 j, (0 : QInf) ≤ y := by
    intro j y hy
    obtain ⟨row, hrowmem, hry⟩ := List.mem_map.mp hy
    obtain ⟨i, hi, hieq⟩ := List.mem_iff_getElem.mp hrowmem
    have hin : i < n := by rw [← hstep1len]; exact hi
    have hrowD : row = step1.getD i [] := by
      rw [List.getD_eq_getElem _ _ hi, hieq]
    by_cases hj : j < row.length
    · rw [← hry, List.getD_eq_getElem _ _ hj]
      apply hpos1 i hin
      rw [← hrowD]
      exact List.getElem_mem hj
    · rw [← hry, List.getD_eq_default _ _ (by omega)]
      exact le_top
  have hcmin_getD : ∀ j, j < n → (cmin step1).getD j 0 = rowMinVal (colGet step1 j) := by
    intro j hj
    simp only [cmin]
    have h1' : j < ((List.range step1.length).map
        (fun j => rowMinVal (colGet step1 j))).length := by
      rw [List.length_map, List.length_range, hstep1len]
      exact hj
    rw [List.getD_eq_getElem _ _ h1', List.getElem_map, List.getElem_range]
  have hrow2 : ∀ i, i < n → ∀ j, j < n →
      (step2.getD i []).getD j ⊤
        = wsub ((step1.getD i []).getD j ⊤) (rowMinVal (colGet step1 j)) := by
    intro i hi j hj
    have hi1 : i < step1.length := by rw [hstep1len]; exact hi
    have hj1 : j < (step1.getD i []).length := by rw [hrowlen1 i hi]; exact hj
    have hjc : j < (cmin step1).length := by rw [cmin_length, hstep1len]; exact hj
    simp only [hstep2, colSub]
    have hmap : i < (step1.map
        (fun row => List.zipWith (fun x mj => wsub x mj) row (cmin step1))).length := by
      rw [List.length_map]
      exact hi1
    rw [List.getD_eq_getElem _ _ hmap, List.getElem_map]
    have hrlen : (step1[i]).length = n := by
      rw [← List.getD_eq_getElem _ _ hi1]
      exact hrowlen1 i hi
    have hjz : j < (List.zipWith (fun x mj => wsub x mj) (step1[i])
        (cmin step1)).length := by
      rw [List.length_zipWith, cmin_length, hrlen, hstep1len]
      omega
    rw [List.getD_eq_getElem _ _ hjz, List.getElem_zipWith]
    rw [List.getD_eq_getElem _ _ hi1, List.getD_eq_getElem _ _
      (show j < (step1[i]).length from by rw [hrlen]; exact hj)]
    rw [← hcmin_getD j hj, List.getD_eq_getElem _ _ hjc]
  have hrowlen2 : ∀ i, i < n → (step2.getD i []).length = n := by
    intro i hi
    have hi1 : i < step1.length := by rw [hstep1len]; exact hi
    simp only [hstep2, colSub]
    have hmap : i < (step1.map
        (fun row => List.zipWith (fun x mj => wsub x mj) row (cmin step1))).length := by
      rw [List.length_map]
      exact hi1
    rw [List.getD_eq_getElem _ _ hmap, List.getElem_map, List.length_zipWith,
      cmin_length]
    have hrlen : (step1[i]).length = n := by
      rw [← List.getD_eq_getElem _ _ hi1]
      exact hrowlen1 i hi
    rw [hrlen, hstep1len]
    exact Nat.min_self n
  refine ⟨rfl, rfl, rfl, ?_, ?_⟩
  · -- every row of the reduced matrix with a finite entry has a zero
    rw [hmat]
    intro row hrowmem hfin
    obtain ⟨i, hi, hieq⟩ := List.mem_iff_getElem.mp hrowmem
    have hin : i < n := by rw [← hstep2len]; exact hi
    have hrowD : row = step2.getD i [] := by
      rw [List.getD_eq_getElem _ _ hi, hieq]
    obtain ⟨x, hx, hxt⟩ := hfin
    obtain ⟨j, hj, hjeq⟩ := List.mem_iff_getElem.mp hx
    have hjn : j < n := by
      rw [hrowD] at hj
      rw [← hrowlen2 i hin]
      exact hj
    -- the corresponding original row has a finite entry
    have hxD : x = (step2.getD i []).getD j ⊤ := by
      rw [← hrowD, List.getD_eq_getElem _ _ hj, hjeq]
    have hfin_m : (m.getD i []).getD j ⊤ ≠ ⊤ := by
      intro htop
      apply hxt
      rw [hxD, hrow2 i hin j hjn]
      rw [(hfin1 i hin j hjn).mpr htop]
      rfl
    have hfinrow : ∃ x ∈ m.getD i [], x ≠ ⊤ := by
      refine ⟨(m.getD i []).getD j ⊤, ?_, hfin_m⟩
      have hjm : j < (m.getD i []).length := by rw [hrowlen_m i hin]; exact hjn
      rw [List.getD_eq_getElem _ _ hjm]
      exact List.getElem_mem hjm
    -- row i of the row-reduced matrix has a zero, say at column j0
    have h01 := hzero1 i hin hfinrow
    obtain ⟨j0, hj0, hj0eq⟩ := List.mem_iff_getElem.mp h01
    have hj0n : j0 < n := by rw [← hrowlen1 i hin]; exact hj0
    have hj0D : (step1.getD i []).getD j0 ⊤ = 0 := by
      rw [List.getD_eq_getElem _ _ hj0, hj0eq]
    -- hence column j0 of the row-reduced matrix contains a zero
    have h0col : (0 : QInf) ∈ colGet step1 j0 := by
      have hicol : i < (colGet step1 j0).length := by
        rw [colGet_length, hstep1len]
        exact hin
      have : (colGet step1 j0)[i] = (0 : QInf) := by
        rw [← List.getD_eq_getElem (colGet step1 j0) ⊤ hicol,
          colGet_getD step1 j0 i (by rw [hstep1len]; exact hin), hj0D]
      rw [← this]
      exact List.getElem_mem hicol
    -- so nothing is subtracted from column j0, and the zero survives
    have hcmin0 : rowMinVal (colGet step1 j0) = 0 := rowMinVal_zero_of_mem _ h0col
    have hfinal : (step2.getD i []).getD j0 ⊤ = 0 := by
      rw [hrow2 i hin j0 hj0n, hj0D, hcmin0]
      exact wsub_zero_zero
    rw [hrowD]
    have hj0' : j0 < (step2.getD i []).length := by rw [hrowlen2 i hin]; exact hj0n
    rw [← hfinal, List.getD_eq_getElem _ _ hj0']
    exact List.getElem_mem hj0'
  · -- every column of the reduced matrix with a finite entry has a zero
    rw [hmat]
    intro j hj hfin
    have hcolsub : colGet step2 j
        = (colGet step1 j).map (fun x => wsub x (rowMinVal (colGet step1 j))) := by
      apply List.ext_getElem
      · rw [colGet_length, hstep2len, List.length_map, colGet_length, hstep1len]
      · intro i h₁ h₂
        have hin : i < n := by
          rw [colGet_length, hstep2len] at h₁
          exact h₁
        have hi1 : i < step1.length := by rw [hstep1len]; exact hin
        have hi2 : i < step2.length := by rw [hstep2len]; exact hin
        have h2' : i < ((colGet step1 j).map
            (fun x => wsub x (rowMinVal (colGet step1 j)))).length := h₂
        rw [← List.getD_eq_getElem (colGet step2 j) ⊤ h₁,
          colGet_getD step2 j i hi2, hrow2 i hin j hj]
        rw [List.getElem_map]
        have hic1 : i < (colGet step1 j).length := by
          rw [colGet_length, hstep1len]
          exact hin
        rw [← List.getD_eq_getElem (colGet step1 j) ⊤ hic1,
          colGet_getD step1 j i hi1]
    rw [hcolsub] at hfin ⊢
    obtain ⟨x, hx, hxt⟩ := hfin
    obtain ⟨y, hy, hyx⟩ := List.mem_map.mp hx
    have hyt : y ≠ ⊤ := by
      intro h
      apply hxt
      rw [← hyx, h]
      rfl
    have hatt := rowMinVal_attained (colGet step1 j) (hposcol1 j) ⟨y, hy, hyt⟩
    refine List.mem_map.mpr ⟨_, hatt, ?_⟩
    rw [wsub_coe]
    simp

/-! ### City and its name-keyed distance dictionary (src/src/city.py) -/

/-- Embeds `City`: name, coordinates, and the `distance_to` dict as an
association list with unique keys (Python dict semantics). -/
structure CityM where
  name : String
  x : ℚ
  y : ℚ
  distance_to : List (String × ℚ)
deriving Repr, DecidableEq

/-- Python dict lookup `m[k]` (`None` embeds a `KeyError`). -/
def dlookup (k : String) : List (String × ℚ) → Option ℚ
  | [] => none
  | p :: ps => if p.1 = k then some p.2 else dlookup k ps

/-- Python dict write `m[k] = v`: update in place when the key exists,
append otherwise. -/
def dinsert (k : String) (v : ℚ) (m : List (String × ℚ)) : List (String × ℚ) :=
  if (dlookup k m).isSome then m.map (fun p => if p.1 = k then (k, v) else p)
  else m ++ [(k, v)]

/-- Embeds `City.__init__`: `self.distance_to = {self.name: 0.0}`, replaced
by the `distance_to` argument when that is truthy (a `None` argument or an
empty dict keeps the self-entry map, as in Python). -/
def mkCity (name : String) (x y : ℚ) (dist? : Option (List (String × ℚ))) :
    CityM :=
  { name := name, x := x, y := y,
    distance_to :=
      match dist? with
      | some dd => if dd = [] then [(name, 0)] else dd
      | none => [(name, 0)] }

/-- Embeds `City.point_dist` up to the external `math.sqrt`, which is passed
in as the function `sqrt`. -/
def point_dist (sqrt : ℚ → ℚ) (x1 y1 x2 y2 : ℚ) : ℚ :=
  sqrt ((x1 - x2) ^ 2 + (y1 - y2) ^ 2)

/-- Embeds `City.calculate_distances`: for every city in the given set whose
name differs from ours, store the computed distance under that name. -/
def calculate_distances (sqrt : ℚ → ℚ) (self : CityM) (cities : List CityM) :
    CityM :=
  { self with
    distance_to :=
      cities.foldl (fun mp c =>
        if c.name ≠ self.name
        then dinsert c.name (point_dist sqrt self.x self.y c.x c.y) mp
        else mp) self.distance_to }

theorem dlookup_dinsert_self (k : String) (v : ℚ) (m : List (String × ℚ)) :
    dlookup k (dinsert k v m) = some v := by
  unfold dinsert
  by_cases h : (dlookup k m).isSome
  · rw [if_pos h]
    induction m with
    | nil => simp [dlookup] at h
    | cons p ps ih =>
      by_cases hp : p.1 = k
      · simp [dlookup, hp]
      · rw [dlookup, if_neg hp] at h
        simp only [List.map_cons, if_neg hp, dlookup, ih h]
  · rw [if_neg h]
    induction m with
    | nil => simp [dlookup]
    | cons p ps ih =>
      have hp : p.1 ≠ k := by
        intro hp
        rw [dlookup, if_pos hp] at h
        simp at h
      rw [dlookup, if_neg hp] at h
      rw [List.cons_append, dlookup, if_neg hp]
      exact ih h

theorem dlookup_dinsert_other (k : String) (v : ℚ) (m : List (String × ℚ))
    (k' : String) (hne : k' ≠ k) :
    dlookup k' (dinsert k v m) = dlookup k' m := by
  unfold dinsert
  by_cases h : (dlookup k m).isSome
  · rw [if_pos h]
    induction m with
    | nil => simp
    | cons p ps ih =>
      by_cases hp : p.1 = k
      · simp only [List.map_cons, if_pos hp, dlookup]
        rw [if_neg (fun hh : k = k' => hne hh.symm),
          if_neg (fun hh : p.1 = k' => hne (hp ▸ hh).symm)]
        by_cases hps : (dlookup k ps).isSome
        · exact ih hps
        · have hid : ps.map (fun p => if p.1 = k then (k, v) else p) = ps := by
            clear ih h
            induction ps with
            | nil => rfl
            | cons q qs ihq =>
              have hq : q.1 ≠ k := by
                intro hq
                rw [dlookup, if_pos hq] at hps
                simp at hps
              rw [dlookup, if_neg hq] at hps
              simp [hq, ihq hps]
          rw [hid]
      · rw [dlookup, if_neg hp] at h
        simp only [List.map_cons, if_neg hp, dlookup]
        by_cases hk'p : p.1 = k'
        · rw [if_pos hk'p, if_pos hk'p]
        · rw [if_neg hk'p, if_neg hk'p]
          exact ih h
  · rw [if_neg h]
    induction m with
    | nil =>
      simp only [List.nil_append, dlookup]
      rw [if_neg (fun hh : k = k' => hne hh.symm)]
    | cons p ps ih =>
      have hp : p.1 ≠ k := by
        intro hp
        rw [dlookup, if_pos hp] at h
        simp at h
      rw [dlookup, if_neg hp] at h
      rw [List.cons_append, dlookup, dlookup]
      by_cases hk'p : p.1 = k'
      · rw [if_pos hk'p, if_pos hk'p]
      · rw [if_neg hk'p, if_neg hk'p]
        exact ih h

theorem calculate_distances_fold (sqrt : ℚ → ℚ) (c : CityM) :
    ∀ (S : List CityM) (mp : List (String × ℚ)),
      (S.map (fun b => b.name)).Nodup →
      (∀ b ∈ S, b.name ≠ c.name →
        dlookup b.name (S.foldl (fun mp c' =>
          if c'.name ≠ c.name
          then dinsert c'.name (point_dist sqrt c.x c.y c'.x c'.y) mp
          else mp) mp) = some (point_dist sqrt c.x c.y b.x b.y))
      ∧ (∀ k, k ∉ S.map (fun b => b.name) →
          dlookup k (S.foldl (fun mp c' =>
            if c'.name ≠ c.name
            then dinsert c'.name (point_dist sqrt c.x c.y c'.x c'.y) mp
            else mp) mp) = dlookup k mp)
      ∧ dlookup c.name (S.foldl (fun mp c' =>
          if c'.name ≠ c.name
          then dinsert c'.name (point_dist sqrt c.x c.y c'.x c'.y) mp
          else mp) mp) = dlookup c.name mp := by
  intro S
  induction S with
  | nil =>
    intro mp _
    exact ⟨by simp, fun k _ => rfl, rfl⟩
  | cons b bs ih =>
    intro mp hnd
    have hnd' : (bs.map (fun b => b.name)).Nodup := by
      rw [List.map_cons] at hnd
      exact (List.nodup_cons.mp hnd).2
    have hbn : b.name ∉ bs.map (fun b => b.name) := by
      rw [List.map_cons] at hnd
      exact (List.nodup_cons.mp hnd).1
    set mp1 := if b.name ≠ c.name
      then dinsert b.name (point_dist sqrt c.x c.y b.x b.y) mp
      else mp with hmp1
    have hfold : (b :: bs).foldl (fun mp c' =>
        if c'.name ≠ c.name
        then dinsert c'.name (point_dist sqrt c.x c.y c'.x c'.y) mp
        else mp) mp
        = bs.foldl (fun mp c' =>
            if c'.name ≠ c.name
            then dinsert c'.name (point_dist sqrt c.x c.y c'.x c'.y) mp
            else mp) mp1 := rfl
    obtain ⟨ih1, ih2, ih3⟩ := ih mp1 hnd'
    refine ⟨?_, ?_, ?_⟩
    · intro b' hb' hb'name
      rcases List.mem_cons.mp hb' with rfl | hb'bs
      · rw [hfold, ih2 b'.name hbn, hmp1, if_pos hb'name,
          dlookup_dinsert_self]
      · rw [hfold]
        exact ih1 b' hb'bs hb'name
    · intro k hk
      have hkbs : k ∉ bs.map (fun b => b.name) := by
        intro hmem
        exact hk (by simp [List.map_cons]; right; simpa using hmem)
      have hkb : k ≠ b.name := by
        intro h
        exact hk (by simp [List.map_cons, h])
      rw [hfold, ih2 k hkbs, hmp1]
      by_cases hbc : b.name ≠ c.name
      · rw [if_pos hbc, dlookup_dinsert_other _ _ _ _ hkb]
      · rw [if_neg hbc]
    · rw [hfold, ih3, hmp1]
      by_cases hbc : b.name ≠ c.name
      · rw [if_pos hbc, dlookup_dinsert_other _ _ _ _ (fun h => hbc h.symm)]
      · rw [if_neg hbc]

/-- Claim C7, amended: provided the map already holds the `0.0` self-entry
(which `City.__init__` guarantees unless a different explicit map was
passed), `calculate_distances(S)` leaves an entry for every member of `S`,
overwrites the entries of the other members' names with the computed
distance, keeps the `0.0` self-entry (it is never written), and leaves
entries under names absent from `S` untouched. -/
theorem calculate_distances_spec (sqrt : ℚ → ℚ) (c : CityM) (S : List CityM)
    (h0 : dlookup c.name c.distance_to = some 0)
    (hnd : (S.map (fun b => b.name)).Nodup) :
    (∀ b ∈ S, (dlookup b.name (calculate_distances sqrt c S).distance_to).isSome)
    ∧ dlookup c.name (calculate_distances sqrt c S).distance_to = some 0
    ∧ (∀ b ∈ S, b.name ≠ c.name →
        dlookup b.name (calculate_distances sqrt c S).distance_to
          = some (point_dist sqrt c.x c.y b.x b.y))
    ∧ (∀ k, k ∉ S.map (fun b => b.name) →
        dlookup k (calculate_distances sqrt c S).distance_to
          = dlookup k c.distance_to) := by
  obtain ⟨h1, h2, h3⟩ := calculate_distances_fold sqrt c S c.distance_to hnd
  have hres : (calculate_distances sqrt c S).distance_to
      = S.foldl (fun mp c' =>
          if c'.name ≠ c.name
          then dinsert c'.name (point_dist sqrt c.x c.y c'.x c'.y) mp
          else mp) c.distance_to := rfl
  refine ⟨?_, ?_, ?_, ?_⟩
  · intro b hb
    by_cases hbc : b.name = c.name
    · rw [hres, hbc, h3, ← hbc]
      rw [hbc, h0]
      rfl
    · rw [hres, h1 b hb hbc]
      rfl
  · rw [hres, h3, h0]
  · intro b hb hbc
    rw [hres]
    exact h1 b hb hbc
  · intro k hk
    rw [hres]
    exact h2 k hk

/-! ### Preprocessing conversion (src/convert_cities.py) -/

/-- An input record of the city-population dataset.  Outer `none` embeds a
missing key (`KeyError`); an inner `none` embeds an unparsable value
(`ValueError` from `int(...)` / `float(...)`). -/
structure InCityRecord where
  name? : Option String
  population? : Option (Option ℤ)
  lat? : Option (Option ℚ)
  lon? : Option (Option ℚ)
deriving Repr, DecidableEq

/-- A converted record in the TSP tour-definition format. -/
structure OutCityRecord where
  name : String
  x : ℚ
  y : ℚ
  population : ℤ
deriving Repr, DecidableEq

/-- Embeds `convert_city`: parse the population first (a `KeyError` or
`ValueError` is caught, a warning printed, and `None` returned), drop the
record when the population is below the threshold, then build the output
dict — where a missing `name` or `coords.lat`/`coords.lon` again raises and
yields `None`. -/
def convert_city (cd : InCityRecord) (min_population : ℤ) :
    Option OutCityRecord :=
  match cd.population? with
  | none => none
  | some none => none
  | some (some population) =>
    if population < min_population then none
    else
      match cd.name?, cd.lat?, cd.lon? with
      | some nm, some (some la), some (some lo) => some ⟨nm, la, lo, population⟩
      | _, _, _ => none

/-- The loop guard `if max_cities and len(tsp_cities) >= max_cities: break`
(`None` and `0` are falsy, so they never stop the loop). -/
def capHit (max_cities : Option ℕ) (len : ℕ) : Bool :=
  match max_cities with
  | none => false
  | some mc => if mc = 0 then false else decide (mc ≤ len)

/-- Embeds the collection loop of `convert_json`: convert each record in
order, append successes, and break once the cap is reached. -/
def collectCities (min_population : ℤ) (max_cities : Option ℕ) :
    List InCityRecord → List OutCityRecord → List OutCityRecord
  | [], acc => acc
  | cd :: rest, acc =>
    match convert_city cd min_population with
    | none => collectCities min_population max_cities rest acc
    | some oc =>
      if capHit max_cities (acc ++ [oc]).length then acc ++ [oc]
      else collectCities min_population max_cities rest (acc ++ [oc])

/-- `tsp_cities.sort(key=lambda x: x["population"], reverse=True)`:
stable descending sort by population. -/
def popDesc (a b : OutCityRecord) : Bool :=
  decide (b.population ≤ a.population)

/-- Embeds `convert_json` minus file I/O: collect the convertible records
(subject to the cap) and sort them by descending population. -/
def convert_json (records : List InCityRecord) (max_cities : Option ℕ)
    (min_population : ℤ) : List OutCityRecord :=
  (collectCities min_population max_cities records []).mergeSort popDesc

theorem collectCities_none_cap (min_population : ℤ) :
    ∀ (records : List InCityRecord) (acc : List OutCityRecord),
      collectCities min_population none records acc
        = acc ++ records.filterMap (fun cd => convert_city cd min_population) := by
  intro records
  induction records with
  | nil =>
    intro acc
    simp [collectCities]
  | cons cd rest ih =>
    intro acc
    rw [collectCities]
    cases hc : convert_city cd min_population with
    | none => rw [ih acc, List.filterMap_cons, hc]
    | some oc =>
      dsimp only
      rw [show capHit none (acc ++ [oc]).length = false from rfl]
      simp only [Bool.false_eq_true, if_false]
      rw [ih (acc ++ [oc]), List.filterMap_cons, hc, List.append_assoc,
        List.singleton_append]

theorem collectCities_some_cap (min_population : ℤ) (mc : ℕ) (hmc : mc ≠ 0) :
    ∀ (records : List InCityRecord) (acc : List OutCityRecord),
      acc.length < mc →
      collectCities min_population (some mc) records acc
        = acc ++ (records.filterMap
            (fun cd => convert_city cd min_population)).take (mc - acc.length) := by
  intro records
  induction records with
  | nil =>
    intro acc _
    simp [collectCities]
  | cons cd rest ih =>
    intro acc hacc
    rw [collectCities]
    cases hc : convert_city cd min_population with
    | none => rw [ih acc hacc, List.filterMap_cons, hc]
    | some oc =>
      dsimp only
      rw [List.filterMap_cons, hc]
      by_cases hhit : capHit (some mc) (acc ++ [oc]).length = true
      · rw [if_pos hhit]
        have hlen : mc ≤ acc.length + 1 := by
          simp only [capHit, if_neg hmc] at hhit
          simpa using hhit
        have hmceq : mc - acc.length = 1 := by omega
        rw [hmceq, show (1 : ℕ) = 0 + 1 from rfl, List.take_succ_cons,
          List.take_zero]
      · rw [if_neg hhit]
        have hlt : acc.length + 1 < mc := by
          simp only [capHit, if_neg hmc] at hhit
          simp at hhit
          omega
        rw [ih (acc ++ [oc]) (by simpa using hlt)]
        rw [List.append_assoc, List.singleton_append]
        congr 1
        have : mc - (acc ++ [oc]).length = mc - acc.length - 1 := by
          simp
          omega
        rw [this]
        have hmca : mc - acc.length = (mc - acc.length - 1) + 1 := by omega
        rw [hmca, List.take_succ_cons]
        have harith : mc - acc.length - 1 + 1 - 1 = mc - acc.length - 1 := by
          omega
        rw [harith]

theorem convert_json_spec (records : List InCityRecord) (max_cities : Option ℕ)
    (min_population : ℤ) :
    (∀ cd p, cd.population? = some (some p) → p < min_population →
        convert_city cd min_population = none)
    ∧ (∀ cd : InCityRecord, cd.population? = none ∨ cd.name? = none
        ∨ cd.lat? = none ∨ cd.lon? = none → convert_city cd min_population = none)
    ∧ List.Pairwise (fun a b => b.population ≤ a.population)
        (convert_json records max_cities min_population)
    ∧ (convert_json records none min_population).length
        = (records.filterMap (fun cd => convert_city cd min_population)).length
    ∧ (∀ mc : ℕ, mc ≠ 0 →
        (convert_json records (some mc) min_population).length
          = min mc (records.filterMap
              (fun cd => convert_city cd min_population)).length) := by
  refine ⟨?_, ?_, ?_, ?_, ?_⟩
  · intro cd p hp hlt
    unfold convert_city
    rw [hp]
    dsimp only
    rw [if_pos hlt]
  · intro cd h
    unfold convert_city
    rcases hp : cd.population? with _ | pp
    · rfl
    · rcases pp with _ | p
      · rfl
      · dsimp only
        rcases h with h | h | h | h
        · rw [h] at hp
          cases hp
        · by_cases hlt : p < min_population
          · rw [if_pos hlt]
          · rw [if_neg hlt, h]
        · by_cases hlt : p < min_population
          · rw [if_pos hlt]
          · rw [if_neg hlt, h]
            rcases cd.name? with _ | nm
            · rfl
            · rfl
        · by_cases hlt : p < min_population
          · rw [if_pos hlt]
          · rw [if_neg hlt, h]
            rcases cd.name? with _ | nm
            · rfl
            · rcases cd.lat? with _ | la
              · rfl
              · rcases la with _ | la'
                · rfl
                · rfl
  · unfold convert_json
    have hs := @List.sorted_mergeSort _ popDesc
      (fun a b c hab hbc => by
        simp [popDesc] at hab hbc ⊢
        exact le_trans hbc hab)
      (fun a b => by
        simp [popDesc]
        exact le_total _ _)
      (collectCities min_population max_cities records [])
    exact hs.imp (fun h => by simpa [popDesc] using h)
  · rw [convert_json, (List.mergeSort_perm _ popDesc).length_eq,
      collectCities_none_cap, List.nil_append]
  · intro mc hmc
    rw [convert_json, (List.mergeSort_perm _ popDesc).length_eq,
      collectCities_some_cap min_population mc hmc records []
        (by simpa using Nat.pos_of_ne_zero hmc),
      List.nil_append, List.length_take]
    congr 1

/-! ### Heap view of one generation (claim C10)

Python `Route` objects live on a heap and populations hold references to
them.  The store is the list of allocated `Route` objects, a reference is an
index into it, and every Python statement that mutates a `Route` becomes a
`List.set` at that object's index.  Reading the source:
`crossover` allocates one fresh `Route` (`child = Route(cities)`) and every
subsequent write (`child.route[i] = ...`, the fill loop, `recalc_rt_len`)
targets it; `mutate` allocates one fresh `Route`
(`route_copy = Route(route.route)`) and writes only to it;
`tournament_selection` and `get_fittest` only read `Route`s (they reorder
reference lists).  The definitions below record exactly those allocations
and writes, with each object's final contents given by the pure functions
verified above. -/

/-- The heap of allocated `Route` objects. -/
abbrev Store (α : Type) := List (Route α)

/-- `Route(...)`: allocate a fresh object, returning the new store and the
fresh reference. -/
def hAlloc (st : Store α) (r : Route α) : Store α × ℕ :=
  (st ++ [r], st.length)

/-- Heap view of `GeneticAlgorithm.crossover`: one fresh allocation
(`child = Route(cities)`), then in-place writes to that child only, landing
on the contents computed by `crossover`; the parents are read, never
written. -/
def hCrossover (d : α → α → ℚ) (st : Store α) (cities childInit : List α)
    (p1ref p2ref : ℕ) (sp ep : ℕ) : Store α × ℕ :=
  let p := hAlloc st (mkRoute d childInit)
  let parent1 := st.getD p1ref default
  let parent2 := st.getD p2ref default
  (p.1.set p.2 (crossover d cities childInit parent1 parent2 sp ep), p.2)

/-- Heap view of `GeneticAlgorithm.mutate`: one fresh allocation
(`route_copy = Route(route.route)`), then the swap and `recalc_rt_len`
write that copy only. -/
def hMutate (d : α → α → ℚ) (st : Store α) (ref : ℕ) (shuffle : List α)
    (pos1 pos2 : ℕ) : Store α × ℕ :=
  let p := hAlloc st (mkRoute d shuffle)
  let copy := p.1.getD p.2 default
  let swapped := listSwap copy.route pos1 pos2
  (p.1.set p.2 ⟨swapped, rt_len d swapped⟩, p.2)

/-- Heap view of `tournament_selection`: draw references from the
population, sort the drawn references by the routes' cached lengths, return
the first — the store is only read. -/
def hTournament (st : Store α) (popRefs : List ℕ) (ids : List ℕ) : Option ℕ :=
  ((ids.map (fun i => popRefs.getD i 0)).mergeSort
    (fun a b => decide ((st.getD a default).length ≤ (st.getD b default).length))).head?

/-- Heap view of the loop body of `evolve_population`. -/
def hMkChild (d : α → α → ℚ) (st : Store α) (popRefs : List ℕ)
    (cities : List α) (rng : SlotRng α) : Store α × Option ℕ :=
  match hTournament st popRefs rng.t1, hTournament st popRefs rng.t2 with
  | some r1, some r2 =>
    let pc := hCrossover d st cities rng.childInit r1 r2 rng.cutA rng.cutB
    if rng.mutCoin then
      let pm := hMutate d pc.1 pc.2
        (rng.mutShuffle ((pc.1.getD pc.2 default).route)) rng.mutPos1 rng.mutPos2
      (pm.1, some pm.2)
    else (pc.1, some pc.2)
  | _, _ => (st, none)

/-- Heap view of `evolve_population` with elitism: slot 0 receives the old
fittest **by reference** (`save_route(0, pop.get_fittest())`, which also
sorts the reference list); the remaining slots receive the children
allocated by the loop. -/
def hEvolve (d : α → α → ℚ) (st : Store α) (popRefs : List ℕ)
    (cities : List α) (rngs : ℕ → SlotRng α) : Store α × List (Option ℕ) :=
  let sortedRefs := popRefs.mergeSort
    (fun a b => decide ((st.getD a default).length ≤ (st.getD b default).length))
  let base := (List.replicate popRefs.length (none : Option ℕ)).set 0 sortedRefs.head?
  (List.range' 1 (popRefs.length - 1)).foldl
    (fun acc i =>
      let pc := hMkChild d acc.1 sortedRefs cities (rngs i)
      (pc.1, acc.2.set i pc.2))
    (st, base)

theorem hCrossover_len (d : α → α → ℚ) (st : Store α) (cities childInit : List α)
    (p1ref p2ref sp ep : ℕ) :
    (hCrossover d st cities childInit p1ref p2ref sp ep).1.length
      = st.length + 1 := by
  unfold hCrossover hAlloc
  dsimp only
  rw [List.length_set, List.length_append]
  rfl

theorem hCrossover_ref (d : α → α → ℚ) (st : Store α) (cities childInit : List α)
    (p1ref p2ref sp ep : ℕ) :
    (hCrossover d st cities childInit p1ref p2ref sp ep).2 = st.length := rfl

theorem hCrossover_frame (d : α → α → ℚ) (st : Store α)
    (cities childInit : List α) (p1ref p2ref sp ep : ℕ) (r : ℕ)
    (hr : r < st.length) :
    (hCrossover d st cities childInit p1ref p2ref sp ep).1.getD r default
      = st.getD r default := by
  unfold hCrossover hAlloc
  dsimp only
  rw [getD_set, if_neg (by rintro ⟨h, _⟩; omega)]
  exact List.getD_append _ _ _ _ hr

theorem hMutate_len (d : α → α → ℚ) (st : Store α) (ref : ℕ)
    (shuffle : List α) (pos1 pos2 : ℕ) :
    (hMutate d st ref shuffle pos1 pos2).1.length = st.length + 1 := by
  unfold hMutate hAlloc
  dsimp only
  rw [List.length_set, List.length_append]
  rfl

theorem hMutate_ref (d : α → α → ℚ) (st : Store α) (ref : ℕ)
    (shuffle : List α) (pos1 pos2 : ℕ) :
    (hMutate d st ref shuffle pos1 pos2).2 = st.length := rfl

theorem hMutate_frame (d : α → α → ℚ) (st : Store α) (ref : ℕ)
    (shuffle : List α) (pos1 pos2 : ℕ) (r : ℕ) (hr : r < st.length) :
    (hMutate d st ref shuffle pos1 pos2).1.getD r default
      = st.getD r default := by
  unfold hMutate hAlloc
  dsimp only
  rw [getD_set, if_neg (by rintro ⟨h, _⟩; omega)]
  exact List.getD_append _ _ _ _ hr

theorem hMkChild_spec (d : α → α → ℚ) (st : Store α) (popRefs : List ℕ)
    (cities : List α) (rng : SlotRng α) :
    st.length ≤ (hMkChild d st popRefs cities rng).1.length
    ∧ (∀ r, r < st.length →
        (hMkChild d st popRefs cities rng).1.getD r default = st.getD r default)
    ∧ (∀ r, (hMkChild d st popRefs cities rng).2 = some r → st.length ≤ r) := by
  unfold hMkChild
  rcases h1 : hTournament st popRefs rng.t1 with _ | r1
  · exact ⟨le_refl _, fun r _ => rfl, fun r h => by cases h⟩
  · rcases h2 : hTournament st popRefs rng.t2 with _ | r2
    · exact ⟨le_refl _, fun r _ => rfl, fun r h => by cases h⟩
    · dsimp only
      by_cases hm : rng.mutCoin
      · rw [if_pos hm]
        refine ⟨?_, ?_, ?_⟩
        · rw [hMutate_len, hCrossover_len]
          omega
        · intro r hr
          rw [hMutate_frame _ _ _ _ _ _ r (by rw [hCrossover_len]; omega),
            hCrossover_frame _ _ _ _ _ _ _ _ r hr]
        · intro r h
          have : r = (hCrossover d st cities rng.childInit r1 r2
              rng.cutA rng.cutB).1.length := by
            rw [← hMutate_ref d _ (hCrossover d st cities rng.childInit r1 r2
              rng.cutA rng.cutB).2 (rng.mutShuffle (((hCrossover d st cities
                rng.childInit r1 r2 rng.cutA rng.cutB).1.getD
                  (hCrossover d st cities rng.childInit r1 r2
                    rng.cutA rng.cutB).2 default).route)) rng.mutPos1 rng.mutPos2]
            exact (Option.some.inj h).symm
          rw [this, hCrossover_len]
          omega
      · rw [if_neg hm]
        refine ⟨?_, ?_, ?_⟩
        · rw [hCrossover_len]
          omega
        · intro r hr
          exact hCrossover_frame _ _ _ _ _ _ _ _ r hr
        · intro r h
          have : r = st.length := by
            rw [← hCrossover_ref d st cities rng.childInit r1 r2 rng.cutA rng.cutB]
            exact (Option.some.inj h).symm
          omega

theorem hEvolve_fold (d : α → α → ℚ) (cities : List α) (rngs : ℕ → SlotRng α)
    (st0 : Store α) (sortedRefs : List ℕ) :
    ∀ (is : List ℕ) (st : Store α) (slots : List (Option ℕ)),
      st0.length ≤ st.length →
      (∀ r, r < st0.length → st.getD r default = st0.getD r default) →
      (∀ i ∈ is, 1 ≤ i) →
      (∀ j, 1 ≤ j → ∀ r, slots.getD j default = some r → st0.length ≤ r) →
      st0.length ≤ (is.foldl (fun acc i =>
          let pc := hMkChild d acc.1 sortedRefs cities (rngs i)
          (pc.1, acc.2.set i pc.2)) (st, slots)).1.length
      ∧ (∀ r, r < st0.length →
          (is.foldl (fun acc i =>
            let pc := hMkChild d acc.1 sortedRefs cities (rngs i)
            (pc.1, acc.2.set i pc.2)) (st, slots)).1.getD r default
              = st0.getD r default)
      ∧ (is.foldl (fun acc i =>
          let pc := hMkChild d acc.1 sortedRefs cities (rngs i)
          (pc.1, acc.2.set i pc.2)) (st, slots)).2.getD 0 default
            = slots.getD 0 default
      ∧ (∀ j, 1 ≤ j → ∀ r,
          (is.foldl (fun acc i =>
            let pc := hMkChild d acc.1 sortedRefs cities (rngs i)
            (pc.1, acc.2.set i pc.2)) (st, slots)).2.getD j default = some r →
          st0.length ≤ r) := by
  intro is
  induction is with
  | nil =>
    intro st slots hlen hframe _ hslots
    exact ⟨hlen, hframe, rfl, hslots⟩
  | cons i is' ih =>
    intro st slots hlen hframe his hslots
    have hi1 : 1 ≤ i := his i (by simp)
    have his' : ∀ i' ∈ is', 1 ≤ i' := fun i' h => his i' (by simp [h])
    obtain ⟨hm1, hm2, hm3⟩ := hMkChild_spec d st sortedRefs cities (rngs i)
    rw [List.foldl_cons]
    have step := ih (hMkChild d st sortedRefs cities (rngs i)).1
      (slots.set i (hMkChild d st sortedRefs cities (rngs i)).2)
      (le_trans hlen hm1)
      (fun r hr => by rw [hm2 r (by omega)]; exact hframe r hr)
      his'
      (by
        intro j hj r hset
        rw [getD_set] at hset
        by_cases hij : i = j ∧ j < slots.length
        · rw [if_pos hij] at hset
          exact hm3 r hset |>.trans' hlen
        · rw [if_neg hij] at hset
          exact hslots j hj r hset)
    refine ⟨step.1, step.2.1, ?_, step.2.2.2⟩
    rw [step.2.2.1, getD_set, if_neg (by rintro ⟨h0, _⟩; omega)]

/-- Claim C10's content, on the heap view: one generation never modifies a
`Route` object reachable from the input population, every child slot holds a
freshly allocated object, and the only reference the output can share with
the input population is the elite placed in slot 0 — which is a member of
the input population. -/
theorem hEvolve_spec (d : α → α → ℚ) (st : Store α) (popRefs : List ℕ)
    (cities : List α) (rngs : ℕ → SlotRng α)
    (hrefs : ∀ r ∈ popRefs, r < st.length) :
    (∀ r, r < st.length →
      (hEvolve d st popRefs cities rngs).1.getD r default = st.getD r default)
    ∧ (∀ j, 1 ≤ j → ∀ r ∈ popRefs,
        (hEvolve d st popRefs cities rngs).2.getD j default ≠ some r)
    ∧ (∀ er, (hEvolve d st popRefs cities rngs).2.getD 0 default = some er →
        er ∈ popRefs) := by
  have hunfold : hEvolve d st popRefs cities rngs
      = (List.range' 1 (popRefs.length - 1)).foldl
          (fun acc i =>
            let pc := hMkChild d acc.1 (popRefs.mergeSort
              (fun a b => decide ((st.getD a default).length
                ≤ (st.getD b default).length))) cities (rngs i)
            (pc.1, acc.2.set i pc.2))
          (st, (List.replicate popRefs.length (none : Option ℕ)).set 0
            (popRefs.mergeSort (fun a b => decide ((st.getD a default).length
              ≤ (st.getD b default).length))).head?) := rfl
  obtain ⟨hk1, hk2, hk3, hk4⟩ := hEvolve_fold d cities rngs st
    (popRefs.mergeSort (fun a b => decide ((st.getD a default).length
      ≤ (st.getD b default).length)))
    (List.range' 1 (popRefs.length - 1)) st
    ((List.replicate popRefs.length (none : Option ℕ)).set 0
      (popRefs.mergeSort (fun a b => decide ((st.getD a default).length
        ≤ (st.getD b default).length))).head?)
    (le_refl _)
    (fun r _ => rfl)
    (fun i hi => (List.mem_range'_1.mp hi).1)
    (by
      intro j hj r hset
      rw [getD_set] at hset
      rw [if_neg (by rintro ⟨h0, _⟩; omega)] at hset
      by_cases hjlt : j < popRefs.length
      · rw [List.getD_eq_getElem _ _ (by simpa using hjlt),
          List.getElem_replicate] at hset
        cases hset
      · rw [List.getD_eq_default _ _ (by simpa using hjlt)] at hset
        cases hset)
  refine ⟨?_, ?_, ?_⟩
  · intro r hr
    rw [hunfold]
    exact hk2 r hr
  · intro j hj r hrmem hset
    rw [hunfold] at hset
    have := hk4 j hj r hset
    have := hrefs r hrmem
    omega
  · intro er her
    rw [hunfold, hk3, getD_set] at her
    by_cases h0 : (0 : ℕ) = 0 ∧ 0 < (List.replicate popRefs.length
        (none : Option ℕ)).length
    · rw [if_pos h0] at her
      have hmem : er ∈ popRefs.mergeSort
          (fun a b => decide ((st.getD a default).length
            ≤ (st.getD b default).length)) := by
        rcases hms : popRefs.mergeSort (fun a b =>
            decide ((st.getD a default).length ≤ (st.getD b default).length))
          with _ | ⟨h, t⟩
        · rw [hms] at her
          cases her
        · rw [hms] at her
          have : er = h := by
            have hh := her
            simp at hh
            exact hh.symm
          rw [this]
          exact List.mem_cons_self h t
      exact (List.mergeSort_perm popRefs _).subset hmem
    · rw [if_neg h0] at her
      by_cases hlt : (0 : ℕ) < popRefs.length
      · exact absurd ⟨rfl, by simpa using hlt⟩ h0
      · rw [List.getD_eq_default _ _ (by simpa using hlt)] at her
        cases her

/-! ### Concrete fixtures used by the claim exhibits and witnesses -/

/-- A symmetric 4-city distance table (a "square" with unit sides and
diagonal 5): the populated `distance_to` maps of a concrete instance. -/
def exDist : ℕ → ℕ → ℚ := fun i j =>
  if (i = 0 ∧ j = 1) ∨ (i = 1 ∧ j = 0) then 1
  else if (i = 1 ∧ j = 2) ∨ (i = 2 ∧ j = 1) then 1
  else if (i = 2 ∧ j = 3) ∨ (i = 3 ∧ j = 2) then 1
  else if (i = 3 ∧ j = 0) ∨ (i = 0 ∧ j = 3) then 1
  else if (i = 0 ∧ j = 2) ∨ (i = 2 ∧ j = 0) then 5
  else if (i = 1 ∧ j = 3) ∨ (i = 3 ∧ j = 1) then 5
  else 0

def exPop : List (Option (Route ℕ)) := [some ⟨[0, 1], 7⟩, some ⟨[1, 0], 3⟩]

def exRngs : ℕ → SlotRng ℕ := fun _ =>
  { t1 := [0], t2 := [1], childInit := [0, 1], cutA := 0, cutB := 1,
    mutCoin := true, mutShuffle := fun l => l, mutPos1 := 0, mutPos2 := 1 }

def exMat : List (List QInf) := [[⊤, ((1 : ℚ) : QInf)], [((2 : ℚ) : QInf), ⊤]]

def exBadCity : CityM := mkCity "a" 0 0 (some [("b", 1)])

def exCityA : CityM := mkCity "a" 0 0 none

def exCityB : CityM := mkCity "b" 3 4 none

def exRec1 : InCityRecord :=
  ⟨some "A", some (some 600000), some (some 1), some (some 2)⟩

def exRec2 : InCityRecord :=
  ⟨some "B", some (some 100), some (some 3), some (some 4)⟩

def exRec3 : InCityRecord :=
  ⟨none, some (some 700000), some (some 5), some (some 6)⟩

def exStore : Store ℕ := [⟨[0, 1], 5⟩, ⟨[1, 0], 2⟩]

/-! ### The claims -/

/-- Claim C1 (code-bug exhibit).  The claim says `BranchAndBound.run`
returns a Route visiting the cities in nearest-neighbour order with the
nearest-neighbour tour length.  The code computes that walk but then passes
it to `Route(route)`, whose `random.sample` re-shuffles it.  On a concrete
4-city instance the nearest-neighbour tour is `[0, 1, 2, 3]` with length 4,
yet under the legitimate sample outcome `[0, 2, 1, 3]` the returned Route
visits `[0, 2, 1, 3]` and reports length 12. -/
theorem claim_C1_bnb_route_reshuffled :
    nnTour exDist [0, 1, 2, 3] = [0, 1, 2, 3]
    ∧ rt_len exDist (nnTour exDist [0, 1, 2, 3]) = 4
    ∧ ([0, 2, 1, 3] : List ℕ).Perm (nnTour exDist [0, 1, 2, 3])
    ∧ (bnbRun exDist [0, 1, 2, 3] (fun _ => [0, 2, 1, 3]) 60).1.route
        = [0, 2, 1, 3]
    ∧ (bnbRun exDist [0, 1, 2, 3] (fun _ => [0, 2, 1, 3]) 60).1.length = 12
    ∧ (bnbRun exDist [0, 1, 2, 3] (fun _ => [0, 2, 1, 3]) 60).1.route
        ≠ nnTour exDist [0, 1, 2, 3]
    ∧ (bnbRun exDist [0, 1, 2, 3] (fun _ => [0, 2, 1, 3]) 60).1.length
        ≠ rt_len exDist (nnTour exDist [0, 1, 2, 3]) := by
  have hA : (bnbRun exDist [0, 1, 2, 3] (fun _ => [0, 2, 1, 3]) 60).1.length
      = 5 + (1 + (5 + (1 + 0))) := rfl
  have hB : rt_len exDist (nnTour exDist [0, 1, 2, 3])
      = 1 + (1 + (1 + (1 + 0))) := rfl
  refine ⟨by decide, ?_, by decide, by decide, ?_, by decide, ?_⟩
  · rw [hB]
    norm_num
  · rw [hA]
    norm_num
  · rw [hA, hB]
    norm_num

/-- Claim C2 (code-bug exhibit).  The claim says `mutate` only exchanges two
randomly chosen positions of the input sequence.  The code's
`route_copy = Route(route.route)` re-samples a fresh random permutation
first ("# Create a copy"), so even with the no-op swap `pos1 = pos2 = 0` and
the legitimate sample outcome `[2, 0, 1]` of `[0, 1, 2]`, position 1 of the
result differs from position 1 of the input. -/
theorem claim_C2_mutate_reshuffles :
    ([2, 0, 1] : List ℕ).Perm (mkRoute exDist [0, 1, 2]).route
    ∧ (mutate exDist (mkRoute exDist [0, 1, 2]) [2, 0, 1] 0 0).route = [2, 0, 1]
    ∧ (mutate exDist (mkRoute exDist [0, 1, 2]) [2, 0, 1] 0 0).route.getD 1 0
        ≠ (mkRoute exDist [0, 1, 2]).route.getD 1 0 := by
  refine ⟨?_, ?_, ?_⟩ <;> decide

/-- Claim C3: for parents that are permutations of the same (duplicate-free)
city set and cut points `s ≤ e < n`, the `crossover` child is a permutation
of the full city set and its positions `[s, e]` coincide with parent 1's. -/
theorem claim_C3_crossover_permutation (d : α → α → ℚ)
    (cities childInit : List α) (p1 p2 : Route α) (s e : ℕ)
    (hc : cities.Nodup) (h1 : p1.route.Perm cities) (h2 : p2.route.Perm cities)
    (hinit : childInit.length = cities.length) (hse : s ≤ e)
    (he : e < cities.length) :
    (crossover d cities childInit p1 p2 s e).route.Perm cities
    ∧ pySlice (crossover d cities childInit p1 p2 s e).route s (e + 1)
        = pySlice p1.route s (e + 1) :=
  crossover_valid d cities childInit p1 p2 s e hc h1 h2 hinit hse he

theorem claim_C3_witness :
    (crossover exDist [0, 1, 2, 3] [3, 2, 1, 0] (mkRoute exDist [1, 0, 3, 2])
      (mkRoute exDist [2, 3, 0, 1]) 1 2).route.Perm [0, 1, 2, 3]
    ∧ pySlice (crossover exDist [0, 1, 2, 3] [3, 2, 1, 0]
        (mkRoute exDist [1, 0, 3, 2]) (mkRoute exDist [2, 3, 0, 1]) 1 2).route
          1 3
        = pySlice (mkRoute exDist [1, 0, 3, 2]).route 1 3 :=
  claim_C3_crossover_permutation exDist [0, 1, 2, 3] [3, 2, 1, 0]
    (mkRoute exDist [1, 0, 3, 2]) (mkRoute exDist [2, 3, 0, 1]) 1 2
    (by decide) (by decide) (by decide) (by decide) (by decide) (by decide)

/-- Claim C4: with elitism enabled, for every fully populated population and
every sequence of random draws (tournament index draws nonempty and
in-range, as `random.randint(0, size - 1)` guarantees for a valid
configuration), the fittest length after `evolve_population` is at most the
fittest length before it. -/
theorem claim_C4_elitism_never_regresses (d : α → α → ℚ)
    (pop : List (Option (Route α))) (cities : List α) (rngs : ℕ → SlotRng α)
    (hne : pop ≠ []) (hall : ∀ o ∈ pop, o.isSome)
    (hrng : ∀ i, (rngs i).t1 ≠ [] ∧ (∀ id ∈ (rngs i).t1, id < pop.length)
      ∧ (rngs i).t2 ≠ [] ∧ (∀ id ∈ (rngs i).t2, id < pop.length)) :
    ∃ rNew rOld,
      getFittest (evolve_population d true pop cities rngs) = some rNew
      ∧ getFittest pop = some rOld
      ∧ rNew.length ≤ rOld.length :=
  evolve_population_elitism_monotone d pop cities rngs hne hall hrng

theorem claim_C4_witness :
    ∃ rNew rOld,
      getFittest (evolve_population exDist true exPop [0, 1] exRngs) = some rNew
      ∧ getFittest exPop = some rOld
      ∧ rNew.length ≤ rOld.length :=
  claim_C4_elitism_never_regresses exDist exPop [0, 1] exRngs (by decide)
    (by decide)
    (fun i =>
      ⟨by show ([0] : List ℕ) ≠ []; decide,
       by show ∀ id ∈ ([0] : List ℕ), id < exPop.length; decide,
       by show ([1] : List ℕ) ≠ []; decide,
       by show ∀ id ∈ ([1] : List ℕ), id < exPop.length; decide⟩)

/-- Claim C5 counterexample: on the square all-infinite matrix `[[∞]]`
(non-negative entries, infinity allowed) the reduced matrix is `[[∞]]`
again, so not every row contains a zero — the claim as stated fails. -/
theorem claim_C5_counterexample :
    (∀ row ∈ [[(⊤ : QInf)]], row.length = [[(⊤ : QInf)]].length)
    ∧ (∀ row ∈ [[(⊤ : QInf)]], ∀ x ∈ row, (0 : QInf) ≤ x)
    ∧ ¬ (∀ row ∈ (mkBranchNode [[(⊤ : QInf)]]).matrix, (0 : QInf) ∈ row) := by
  refine ⟨?_, ?_, ?_⟩ <;> decide

/-- Claim C5, amended: for every square matrix of non-negative entries
(infinity allowed), after the reduction at `BranchNode` construction every
row and every column **that still contains a finite entry** contains a zero,
and the node's `value` is the sum of the stored subtracted row and column
minima. -/
theorem claim_C5_reduction_zeros (m : List (List QInf))
    (hsq : ∀ row ∈ m, row.length = m.length)
    (hpos : ∀ row ∈ m, ∀ x ∈ row, (0 : QInf) ≤ x) :
    (mkBranchNode m).value
        = (mkBranchNode m).rminval.sum + (mkBranchNode m).cminval.sum
    ∧ (mkBranchNode m).rminval = rmin m
    ∧ (mkBranchNode m).cminval = cmin (rowSub m (rmin m))
    ∧ (∀ row ∈ (mkBranchNode m).matrix, (∃ x ∈ row, x ≠ ⊤) → (0 : QInf) ∈ row)
    ∧ (∀ j, j < m.length →
        (∃ x ∈ colGet (mkBranchNode m).matrix j, x ≠ ⊤) →
        (0 : QInf) ∈ colGet (mkBranchNode m).matrix j) :=
  mkBranchNode_spec m hsq hpos

theorem claim_C5_witness :
    (mkBranchNode exMat).value
        = (mkBranchNode exMat).rminval.sum + (mkBranchNode exMat).cminval.sum
    ∧ (mkBranchNode exMat).rminval = rmin exMat
    ∧ (mkBranchNode exMat).cminval = cmin (rowSub exMat (rmin exMat))
    ∧ (∀ row ∈ (mkBranchNode exMat).matrix, (∃ x ∈ row, x ≠ ⊤) →
        (0 : QInf) ∈ row)
    ∧ (∀ j, j < exMat.length →
        (∃ x ∈ colGet (mkBranchNode exMat).matrix j, x ≠ ⊤) →
        (0 : QInf) ∈ colGet (mkBranchNode exMat).matrix j) :=
  claim_C5_reduction_zeros exMat (by decide) (by decide)

/-- Claim C6: `time_limit` is accepted and read nowhere, so the returned
route and accumulated lower bound are identical for any two values of the
parameter (with the same cities, distances and random draws). -/
theorem claim_C6_time_limit_no_effect (d : α → α → ℚ) (cities : List α)
    (shuffle : List α → List α) (t₁ t₂ : ℚ) :
    bnbRun d cities shuffle t₁ = bnbRun d cities shuffle t₂ := rfl

/-- Claim C7 counterexample: a `City` constructed with an explicit
`distance_to` dict lacking the self-entry.  After
`calculate_distances([c])` the map still has no entry for `c` itself (the
loop skips names equal to its own), so neither "an entry for every member of
S" nor "a 0.0 entry for c itself" holds as claimed. -/
theorem claim_C7_counterexample :
    exBadCity ∈ [exBadCity]
    ∧ dlookup exBadCity.name
        (calculate_distances (fun q => q) exBadCity [exBadCity]).distance_to
      = none := by
  refine ⟨?_, ?_⟩ <;> decide

/-- Claim C7, amended: provided the map already holds the `0.0` self-entry
(as default construction guarantees) and the set's names are distinct:
after `calculate_distances(S)` the map has an entry for every member of `S`;
the self-entry stays `0.0` (names equal to our own are never written);
entries for the other members' names are overwritten with the computed
Euclidean distance; entries under names absent from `S` are unchanged. -/
theorem claim_C7_distance_map (sqrt : ℚ → ℚ) (c : CityM) (S : List CityM)
    (h0 : dlookup c.name c.distance_to = some 0)
    (hnd : (S.map (fun b => b.name)).Nodup) :
    (∀ b ∈ S, (dlookup b.name (calculate_distances sqrt c S).distance_to).isSome)
    ∧ dlookup c.name (calculate_distances sqrt c S).distance_to = some 0
    ∧ (∀ b ∈ S, b.name ≠ c.name →
        dlookup b.name (calculate_distances sqrt c S).distance_to
          = some (point_dist sqrt c.x c.y b.x b.y))
    ∧ (∀ k, k ∉ S.map (fun b => b.name) →
        dlookup k (calculate_distances sqrt c S).distance_to
          = dlookup k c.distance_to) :=
  calculate_distances_spec sqrt c S h0 hnd

theorem claim_C7_witness :
    (∀ b ∈ [exCityB],
      (dlookup b.name
        (calculate_distances (fun q => q) exCityA [exCityB]).distance_to).isSome)
    ∧ dlookup exCityA.name
        (calculate_distances (fun q => q) exCityA [exCityB]).distance_to = some 0
    ∧ (∀ b ∈ [exCityB], b.name ≠ exCityA.name →
        dlookup b.name
          (calculate_distances (fun q => q) exCityA [exCityB]).distance_to
            = some (point_dist (fun q => q) exCityA.x exCityA.y b.x b.y))
    ∧ (∀ k, k ∉ [exCityB].map (fun b => b.name) →
        dlookup k (calculate_distances (fun q => q) exCityA [exCityB]).distance_to
          = dlookup k exCityA.distance_to) :=
  claim_C7_distance_map (fun q => q) exCityA [exCityB] (by decide) (by decide)

/-- Claim C8: with symmetric distance maps the cyclic tour length computed
by `recalc_rt_len` is invariant under rotation and under reversal of the
sequence. -/
theorem claim_C8_length_invariance (d : α → α → ℚ)
    (hsym : ∀ a b, d a b = d b a) (l : List α) (k : ℕ) :
    rt_len d (l.rotate k) = rt_len d l
    ∧ rt_len d l.reverse = rt_len d l :=
  ⟨rt_len_rotate d l k, rt_len_reverse d hsym l⟩

def exDistBool : Bool → Bool → ℚ := fun a b => if a = b then 0 else 2

theorem claim_C8_witness :
    rt_len exDistBool ([true, false, true].rotate 1)
        = rt_len exDistBool [true, false, true]
    ∧ rt_len exDistBool [true, false, true].reverse
        = rt_len exDistBool [true, false, true] :=
  claim_C8_length_invariance exDistBool (by decide) [true, false, true] 1

/-- Claim C9: the preprocessing conversion drops every record whose parsed
population is below the threshold, drops (with a warning) every record with
a missing required field, sorts its output by descending population, and its
output count is the number of convertible records, clipped by a nonzero
cap. -/
theorem claim_C9_preprocessing (records : List InCityRecord)
    (max_cities : Option ℕ) (min_population : ℤ) :
    (∀ cd p, cd.population? = some (some p) → p < min_population →
        convert_city cd min_population = none)
    ∧ (∀ cd : InCityRecord, cd.population? = none ∨ cd.name? = none
        ∨ cd.lat? = none ∨ cd.lon? = none → convert_city cd min_population = none)
    ∧ List.Pairwise (fun a b => b.population ≤ a.population)
        (convert_json records max_cities min_population)
    ∧ (convert_json records none min_population).length
        = (records.filterMap (fun cd => convert_city cd min_population)).length
    ∧ (∀ mc : ℕ, mc ≠ 0 →
        (convert_json records (some mc) min_population).length
          = min mc (records.filterMap
              (fun cd => convert_city cd min_population)).length) :=
  convert_json_spec records max_cities min_population

theorem claim_C9_witness :
    convert_city exRec2 500000 = none
    ∧ convert_city exRec3 500000 = none
    ∧ List.Pairwise (fun a b => b.population ≤ a.population)
        (convert_json [exRec1, exRec2, exRec3] none 500000)
    ∧ (convert_json [exRec1, exRec2, exRec3] none 500000).length
        = ([exRec1, exRec2, exRec3].filterMap
            (fun cd => convert_city cd 500000)).length := by
  obtain ⟨h1, h2, h3, h4, _⟩ :=
    claim_C9_preprocessing [exRec1, exRec2, exRec3] none 500000
  exact ⟨h1 exRec2 100 (by decide) (by decide),
    h2 exRec3 (Or.inr (Or.inl (by decide))), h3, h4⟩

/-- Claim C10, on the heap view of one generation: no `Route` object of the
input population is modified (all pre-existing store cells are unchanged),
no slot other than slot 0 can hold a reference into the input population
(children are freshly allocated), and slot 0's reference — the elite stored
by `save_route(0, pop.get_fittest())` — is a member of the input
population. -/
theorem claim_C10_routes_not_mutated (d : α → α → ℚ) (st : Store α)
    (popRefs : List ℕ) (cities : List α) (rngs : ℕ → SlotRng α)
    (hrefs : ∀ r ∈ popRefs, r < st.length) :
    (∀ r, r < st.length →
      (hEvolve d st popRefs cities rngs).1.getD r default = st.getD r default)
    ∧ (∀ j, 1 ≤ j → ∀ r ∈ popRefs,
        (hEvolve d st popRefs cities rngs).2.getD j default ≠ some r)
    ∧ (∀ er, (hEvolve d st popRefs cities rngs).2.getD 0 default = some er →
        er ∈ popRefs) :=
  hEvolve_spec d st popRefs cities rngs hrefs

theorem claim_C10_witness :
    (∀ r, r < exStore.length →
      (hEvolve exDist exStore [0, 1] [0, 1] exRngs).1.getD r default
        = exStore.getD r default)
    ∧ (∀ j, 1 ≤ j → ∀ r ∈ ([0, 1] : List ℕ),
        (hEvolve exDist exStore [0, 1] [0, 1] exRngs).2.getD j default ≠ some r)
    ∧ (∀ er, (hEvolve exDist exStore [0, 1] [0, 1] exRngs).2.getD 0 default
        = some er → er ∈ ([0, 1] : List ℕ)) :=
  claim_C10_routes_not_mutated exDist exStore [0, 1] [0, 1] exRngs (by decide)

end TSP
